import Mathlib

/-!
Verification development for the Lumi document span/offset model and
highlight-overlay engine.

The definitions below are a shallow embedding of the TypeScript sources:
  - frontend/src/components/lumi_span/lumi_span_utils.ts  (flattenTags)
  - frontend/src/components/lumi_span/lumi_span.ts        (createInsertionsMap,
       calculateRenderedContent: per-character marking and the render loop)
  - frontend/src/shared/highlight_manager.ts              (HighlightManagerBase)
  - frontend/src/shared/selection_utils.ts                (getOffsetInLumiSpan,
       getSelectionInfo)
plus a model of the document index (LumiDocManager), whose implementation is
not in the source tree; it is modelled from the specification and checked
against the repository's own test fixtures.

JavaScript objects are embedded as association lists where lookup returns the
first matching key; the object spread `\x7b...a, ...b\x7d` (b wins on conflict)
is then embedded as the list `b ++ a`.
-/

/-- A JavaScript-style object with string values, as an association list.
Lookup returns the first matching binding. -/
abbrev Obj : Type := List (String × String)

/-- Property lookup on an embedded object: the first binding wins. -/
def Obj.get (o : Obj) (k : String) : Option String :=
  match o with
  | [] => none
  | (k', v) :: rest => if k' = k then some v else Obj.get rest k

/-- Embedding of the JS spread `\x7b...a, ...b\x7d`: keys of `b` win. -/
def Obj.spread (a b : Obj) : Obj := b ++ a

/-- The closed enumeration of inner-tag kinds (`InnerTagName` in
`shared/lumi_doc.ts`). -/
inductive InnerTagName : Type where
  | bold
  | italic
  | underline
  | anchor
  | code
  | math
  | mathDisplay
  | reference
  | footnote
  | spanReference
  | concept
  deriving DecidableEq, Repr

/-- A start/end character offset pair (`Position` in `shared/lumi_doc.ts`).
TypeScript numbers are embedded as integers. -/
structure Pos where
  startIndex : Int
  endIndex : Int
  deriving DecidableEq, Repr

/-- An inner tag: kind, offset range relative to the parent coordinate space,
metadata object, and optional children (`InnerTag` in `shared/lumi_doc.ts`).
`children = none` embeds the JS `undefined`. -/
inductive InnerTag : Type where
  | mk : InnerTagName → Pos → Obj → Option (List InnerTag) → InnerTag

/-- The tag kind of an inner tag. -/
def InnerTag.tagName : InnerTag → InnerTagName
  | .mk n _ _ _ => n

/-- The offset range of an inner tag. -/
def InnerTag.position : InnerTag → Pos
  | .mk _ p _ _ => p

/-- The metadata object of an inner tag. -/
def InnerTag.metadata : InnerTag → Obj
  | .mk _ _ m _ => m

/-- The children of an inner tag (`none` embeds `undefined`). -/
def InnerTag.children : InnerTag → Option (List InnerTag)
  | .mk _ _ _ c => c

/-- The children of a tag as a plain list; `undefined` and `[]` both yield
the empty list (the source guards recursion with
`tag.children && tag.children.length > 0`). -/
def InnerTag.childrenList : InnerTag → List InnerTag
  | .mk _ _ _ none => []
  | .mk _ _ _ (some cs) => cs

mutual

/-- The body of `lumi_span_utils.ts` `flattenTags` for one tag: shift its
position by the accumulated parent offset, emit it with `children` cleared,
then recurse into its children with this tag's absolute start as the new
offset base. -/
def flattenOne : InnerTag → Int → List InnerTag
  | .mk n p m c, parentOffset =>
    let absStart := p.startIndex + parentOffset
    let absEnd := p.endIndex + parentOffset
    let emitted : InnerTag := .mk n ⟨absStart, absEnd⟩ m none
    emitted ::
      (match c with
       | some cs => flattenTags cs absStart
       | none => [])

/-- `lumi_span_utils.ts` `flattenTags`: flattens nested inner tags into a
single list with offsets in the span's absolute coordinate space, clearing
every emitted tag's `children`, in depth-first emission order. -/
def flattenTags : List InnerTag → Int → List InnerTag
  | [], _ => []
  | t :: rest, parentOffset =>
    flattenOne t parentOffset ++ flattenTags rest parentOffset

end

/-- The atomic addressable text unit (`LumiSpan` in `shared/lumi_doc.ts`). -/
structure LumiSpan where
  id : String
  text : String
  innerTags : List InnerTag

/-- A bibliography entry; only its `id` and span id are relevant here
(`LumiReference` in `shared/lumi_doc.ts`). -/
structure LumiReference where
  id : String
  spanId : String
  deriving DecidableEq, Repr

/-- A footnote entry (`LumiFootnote` in `shared/lumi_doc.ts`). -/
structure LumiFootnote where
  id : String
  deriving DecidableEq, Repr

/-- A highlight: color tag, target span id, optional offset range, optional
metadata (`Highlight` in `shared/lumi_doc.ts`). -/
structure Highlight where
  color : String
  spanId : String
  position : Option Pos
  metadata : Option Obj
  deriving DecidableEq, Repr

/-- A key of the per-character formatting counter object in
`calculateRenderedContent`: either an inner-tag kind or the distinguished
`GENERAL_HIGHLIGHT_KEY`. -/
inductive CounterKey : Type where
  | tagKey : InnerTagName → CounterKey
  | generalHighlightKey : CounterKey
  deriving DecidableEq, Repr

/-- The per-character formatting counter (`FormattingCounter` in
`lumi_span.ts`): an object mapping counter keys to metadata objects,
embedded as an association list where the first binding wins. -/
abbrev FormattingCounter : Type := List (CounterKey × Obj)

/-- Counter lookup for a key (first binding wins). -/
def counterGet (c : FormattingCounter) (k : CounterKey) : Option Obj :=
  match c with
  | [] => none
  | (k', v) :: rest => if k' = k then some v else counterGet rest k

/-- Counter assignment `counter[k] = v`: consing a binding models JS property
assignment under first-binding-wins lookup. -/
def counterSet (c : FormattingCounter) (k : CounterKey) (v : Obj) :
    FormattingCounter :=
  (k, v) :: c

/-- The `COLOR_HIGHLIGHT_KEY` constant of `lumi_span.ts`. -/
def colorHighlightKey : String := "highlight_color"

/-- The update a single inner tag applies to one character's counter
(`lumi_span.ts` lines 453-464):
`counter[tag.tagName] = \x7b...tag.metadata, ...(counter[tag.tagName] || \x7b\x7d)\x7d`. -/
def tagUpd (t : InnerTag) (c : FormattingCounter) : FormattingCounter :=
  counterSet c (CounterKey.tagKey t.tagName)
    (Obj.spread t.metadata ((counterGet c (CounterKey.tagKey t.tagName)).getD []))

/-- The metadata object a highlight writes under `GENERAL_HIGHLIGHT_KEY`:
first `\x7b[COLOR_HIGHLIGHT_KEY]: color\x7d`, then, when highlight metadata is
present, `\x7b...metadata, ...current\x7d` with the freshly written color object
winning (`lumi_span.ts` lines 474-487). -/
def hlValue (h : Highlight) : Obj :=
  match h.metadata with
  | none => [(colorHighlightKey, h.color)]
  | some md => Obj.spread md [(colorHighlightKey, h.color)]

/-- The update a single highlight applies to one character's counter. -/
def hlUpd (h : Highlight) (c : FormattingCounter) : FormattingCounter :=
  counterSet c CounterKey.generalHighlightKey (hlValue h)

/-- One bounds-checked marking sweep over the counters list, numbering the
characters from `i`: each index `j` with `s ≤ j < e` is updated, every other
index (in particular the out-of-range portion of `[s, e)`) is left unchanged.
This is the per-character loop
`for (let i = start; i < end; i++) \x7b if (formattingCounters[i]) ... \x7d`. -/
def markRangeFrom (s e : Int) (upd : FormattingCounter → FormattingCounter)
    (i : Nat) : List FormattingCounter → List FormattingCounter
  | [] => []
  | c :: rest =>
    (if s ≤ (i : Int) ∧ (i : Int) < e then upd c else c) ::
      markRangeFrom s e upd (i + 1) rest

/-- Marking sweep starting at character 0. -/
def markRange (s e : Int) (upd : FormattingCounter → FormattingCounter)
    (cs : List FormattingCounter) : List FormattingCounter :=
  markRangeFrom s e upd 0 cs

/-- The tag marking pass of `calculateRenderedContent`: every flattened tag
marks the characters of its half-open range. -/
def applyTags (tags : List InnerTag) (cs : List FormattingCounter) :
    List FormattingCounter :=
  tags.foldl
    (fun acc t =>
      markRange t.position.startIndex t.position.endIndex (tagUpd t) acc)
    cs

/-- The highlight marking pass of `calculateRenderedContent`: a highlight with
no position defaults to the whole span `[0, n)`. -/
def applyHighlights (n : Nat) (hls : List Highlight)
    (cs : List FormattingCounter) : List FormattingCounter :=
  hls.foldl
    (fun acc h =>
      match h.position with
      | some p => markRange p.startIndex p.endIndex (hlUpd h) acc
      | none => markRange 0 (n : Int) (hlUpd h) acc)
    cs

/-- The final per-character counters for a span: empty counters, then the tag
pass over the flattened tags, then the highlight pass. -/
def countersFor (span : LumiSpan) (highlights : List Highlight) :
    List FormattingCounter :=
  applyHighlights span.text.length highlights
    (applyTags (flattenTags span.innerTags 0)
      (List.replicate span.text.length []))

/-- A side-channel insertion marker produced by `createInsertionsMap`: a
citation badge (one `(index + 1, reference id)` entry per resolved id), a
footnote badge, or a span-citation badge. -/
inductive Insertion : Type where
  | citationIns : List (Nat × String) → Insertion
  | footnoteIns : Nat → String → Insertion
  | spanCitationIns : List (Nat × String) → Insertion
  deriving DecidableEq, Repr

/-- The insertions map of `createInsertionsMap`: a JS `Map` from integer
offset to the list of insertion markers pushed for that offset, embedded as
an association list with unique keys in insertion order. -/
abbrev InsMap : Type := List (Int × List Insertion)

/-- `insertions.get(k)` with the empty-list default used by the render loop
(`insertions.has(k) ? insertions.get(k) : []`). -/
def insGet (m : InsMap) (k : Int) : List Insertion :=
  match m with
  | [] => []
  | (k', v) :: rest => if k' = k then v else insGet rest k

/-- `if (!insertions.has(k)) insertions.set(k, []); insertions.get(k).push(v)`:
appends to the existing entry, or creates a new entry at the end. -/
def insPush (m : InsMap) (k : Int) (v : Insertion) : InsMap :=
  match m with
  | [] => [(k, [v])]
  | (k', v') :: rest =>
    if k' = k then (k', v' ++ [v]) :: rest else (k', v') :: insPush rest k v

/-- The insertion (with its anchor offset) produced by one top-level inner tag
in `createInsertionsMap`, or `none` when the tag produces no marker: wrong
kind, missing or empty metadata `id`, absent reference/footnote/referenced-span
list, or no id resolving to an entry of that list. -/
def insOf (references : Option (List LumiReference))
    (footnotes : Option (List LumiFootnote))
    (referencedSpans : Option (List LumiSpan)) (t : InnerTag) :
    Option (Int × Insertion) :=
  if t.tagName = InnerTagName.reference then
    match t.metadata.get "id", references with
    | some idStr, some refs =>
      if idStr = "" then none
      else
        let refIds := (idStr.splitOn ",").map (fun s => s.trim)
        let citations := refIds.filterMap
          (fun refId =>
            (refs.findIdx? (fun r => r.id = refId)).map
              (fun i => (i + 1, refId)))
        if citations.length > 0 then
          some (t.position.startIndex, Insertion.citationIns citations)
        else none
    | _, _ => none
  else if t.tagName = InnerTagName.footnote then
    match t.metadata.get "id", footnotes with
    | some footnoteId, some notes =>
      if footnoteId = "" then none
      else
        match notes.findIdx? (fun note => note.id = footnoteId) with
        | some i => some (t.position.startIndex,
            Insertion.footnoteIns (i + 1) footnoteId)
        | none => none
    | _, _ => none
  else if t.tagName = InnerTagName.spanReference then
    match t.metadata.get "id", referencedSpans with
    | some refId, some spans =>
      if refId = "" then none
      else
        match spans.findIdx? (fun s => s.id = refId) with
        | some i => some (t.position.startIndex,
            Insertion.spanCitationIns [(i + 1, refId)])
        | none => none
    | _, _ => none
  else none

/-- One step of the `span.innerTags.forEach` fold in `createInsertionsMap`. -/
def insStep (references : Option (List LumiReference))
    (footnotes : Option (List LumiFootnote))
    (referencedSpans : Option (List LumiSpan)) (m : InsMap) (t : InnerTag) :
    InsMap :=
  match insOf references footnotes referencedSpans t with
  | some (k, v) => insPush m k v
  | none => m

/-- `lumi_span.ts` `createInsertionsMap`: walks the span's top-level inner
tags in order and pushes a marker for every reference, footnote, or cross-span
reference tag whose metadata id resolves against the supplied lists. -/
def createInsertionsMap (span : LumiSpan)
    (references : Option (List LumiReference))
    (footnotes : Option (List LumiFootnote))
    (referencedSpans : Option (List LumiSpan)) : InsMap :=
  span.innerTags.foldl (insStep references footnotes referencedSpans) []

/-- One renderable unit emitted by the render loop of
`calculateRenderedContent`, tagged with the loop index at which it was
emitted: an insertion marker (anchored at its map key), a coalesced equation
(accumulated text plus display flag), or a single formatted character with
its counter. -/
inductive RenderUnit : Type where
  | insUnit : Nat → Insertion → RenderUnit
  | equationUnit : Nat → String → Bool → RenderUnit
  | charUnit : Nat → Char → FormattingCounter → RenderUnit
  deriving DecidableEq, Repr

/-- The loop index at which a render unit was emitted. -/
def RenderUnit.idx : RenderUnit → Nat
  | .insUnit i _ => i
  | .equationUnit i _ _ => i
  | .charUnit i _ _ => i

/-- The insertion units for loop index `i`. -/
def insUnitsAt (m : InsMap) (i : Nat) : List RenderUnit :=
  (insGet m (i : Int)).map (RenderUnit.insUnit i)

/-- Whether a character's counter carries the basic math tag. -/
def hasBasicMath (c : FormattingCounter) : Bool :=
  (counterGet c (CounterKey.tagKey InnerTagName.math)).isSome

/-- Whether a character's counter carries the display math tag. -/
def hasDisplayMath (c : FormattingCounter) : Bool :=
  (counterGet c (CounterKey.tagKey InnerTagName.mathDisplay)).isSome

/-- The `spanText.split("").flatMap(...)` render loop of
`calculateRenderedContent` (lines 494-545), over the remaining
character/counter pairs, the current loop index, and the accumulated
`equationText`. Insertions for the current index are prepended; a character
carrying a math kind accumulates into `equationText` and emits a single
equation unit at the first index whose successor no longer carries the
checked math kind (basic math preferred); any other character is emitted as
one formatted character unit. -/
def partsLoop (m : InsMap) : List (Char × FormattingCounter) → Nat → String →
    List RenderUnit
  | [], _, _ => []
  | (c, fc) :: rest, i, eqText =>
    let inserts := insUnitsAt m i
    if hasBasicMath fc ∨ hasDisplayMath fc then
      let eqText2 := eqText.push c
      let tagToCheck : InnerTagName :=
        if hasBasicMath fc then InnerTagName.math else InnerTagName.mathDisplay
      match rest with
      | (c2, fc2) :: rest2 =>
        if (counterGet fc2 (CounterKey.tagKey tagToCheck)).isSome then
          inserts ++ partsLoop m ((c2, fc2) :: rest2) (i + 1) eqText2
        else
          inserts ++
            RenderUnit.equationUnit i eqText2 (hasDisplayMath fc) ::
              partsLoop m ((c2, fc2) :: rest2) (i + 1) ""
      | [] => inserts ++ [RenderUnit.equationUnit i eqText2 (hasDisplayMath fc)]
    else
      inserts ++ RenderUnit.charUnit i c fc :: partsLoop m rest (i + 1) eqText

/-- The full unit stream for a span under the non-fast-path branch of
`calculateRenderedContent`: the render loop output followed by the insertions
anchored exactly at the end-of-text offset. -/
def renderedUnits (span : LumiSpan) (highlights : List Highlight)
    (references : Option (List LumiReference))
    (footnotes : Option (List LumiFootnote))
    (referencedSpans : Option (List LumiSpan)) : List RenderUnit :=
  let m := createInsertionsMap span references footnotes referencedSpans
  partsLoop m (span.text.toList.zip (countersFor span highlights)) 0 "" ++
    insUnitsAt m span.text.length

/-- The `highlightedSpans` state of `HighlightManagerBase`
(`shared/highlight_manager.ts`): a JS `Map` from span id to its highlight
list, embedded as an association list with unique keys in insertion order. -/
abbrev HighlightStore : Type := List (String × List Highlight)

/-- `highlightedSpans.get(spanId)` (no default). -/
def storeGet (st : HighlightStore) (spanId : String) :
    Option (List Highlight) :=
  match st with
  | [] => none
  | (k, v) :: rest => if k = spanId then some v else storeGet rest spanId

/-- `highlightedSpans.set(spanId, v)`: replaces the existing entry in place,
or appends a new entry. -/
def storeSet (st : HighlightStore) (spanId : String) (v : List Highlight) :
    HighlightStore :=
  match st with
  | [] => [(spanId, v)]
  | (k, v') :: rest =>
    if k = spanId then (k, v) :: rest else (k, v') :: storeSet rest spanId v

/-- `highlightedSpans.delete(spanId)`. -/
def storeDelete (st : HighlightStore) (spanId : String) : HighlightStore :=
  match st with
  | [] => []
  | (k, v) :: rest =>
    if k = spanId then rest else (k, v) :: storeDelete rest spanId

/-- `HighlightManagerBase.addHighlights`: appends each highlight to the
existing list for its span id (`existing ++ [highlight]`). -/
def addHighlights (st : HighlightStore) (highlights : List Highlight) :
    HighlightStore :=
  highlights.foldl
    (fun acc h => storeSet acc h.spanId ((storeGet acc h.spanId).getD [] ++ [h]))
    st

/-- `HighlightManagerBase.getSpanHighlights`: the stored list, or `[]`. -/
def getSpanHighlights (st : HighlightStore) (spanId : String) :
    List Highlight :=
  (storeGet st spanId).getD []

/-- `HighlightManagerBase.removeHighlights`: deletes every listed span id. -/
def removeHighlights (st : HighlightStore) (spanIds : List String) :
    HighlightStore :=
  spanIds.foldl storeDelete st

/-- `HighlightManagerBase.clearHighlights` restricted to the span store:
`highlightedSpans.clear()`. -/
def clearHighlights : HighlightStore := []

/-- A child element of a rendered span unit, per the rendering convention
`selection_utils.ts` relies on: one element per character, plus interleaved
inline citation markers (class `CITATION_CLASSNAME`), footnote markers
(class `FOOTNOTE_CLASSNAME`), and possibly other elements; each element
carries its text content. -/
inductive RElem : Type where
  | charElem : Char → RElem
  | citationElem : String → RElem
  | footnoteElem : String → RElem
  | plainElem : String → RElem
  deriving DecidableEq, Repr

/-- Whether an element's class list contains `CITATION_CLASSNAME` or
`FOOTNOTE_CLASSNAME` (the inline-tag test of `getOffsetInLumiSpan`). -/
def RElem.isInlineMarker : RElem → Bool
  | .citationElem _ => true
  | .footnoteElem _ => true
  | _ => false

/-- Whether an element is a single-character container. -/
def RElem.isCharElem : RElem → Bool
  | .charElem _ => true
  | _ => false

/-- The text content of a child element. -/
def RElem.text : RElem → String
  | .charElem c => String.mk [c]
  | .citationElem s => s
  | .footnoteElem s => s
  | .plainElem s => s

/-- A rendered `<lumi-span>` unit: its `id` attribute and the ordered children
of its renderer element. -/
structure LumiUnit where
  uid : String
  children : List RElem
  deriving DecidableEq, Repr

/-- The `textContent` of a rendered unit: the concatenated text of all its
children (marker text included). -/
def unitText (u : LumiUnit) : String :=
  u.children.foldl (fun acc e => acc ++ e.text) ""

/-- A sibling element in the container holding the rendered units: either a
`<lumi-span>` unit or some other element (skipped by the sibling walk). -/
inductive SibNode : Type where
  | lumi : LumiUnit → SibNode
  | other : SibNode
  deriving DecidableEq, Repr

/-- `selection_utils.ts` `getOffsetInLumiSpan`: the index of the boundary's
character container among the unit's children, minus the number of inline
citation/footnote marker elements preceding it. -/
def getOffsetInLumiSpan (children : List RElem) (spanIndex : Nat) : Int :=
  let inlineTagOffset :=
    ((children.take spanIndex).filter (fun e => e.isInlineMarker)).length
  (spanIndex : Int) - (inlineTagOffset : Int)

/-- A selection boundary: the index (among the sibling nodes) of the unit the
boundary's container lives in, and the index of that container among the
unit's children. -/
structure SelBoundary where
  node : Nat
  child : Nat
  deriving DecidableEq, Repr

/-- The browser selection as `getSelectionInfo` observes it: the stringified
selection text, whether `getRangeAt(0)` yields a range, the sibling elements
of the container, and the two boundaries. -/
structure Sel where
  text : String
  hasRange : Bool
  nodes : List SibNode
  first : SelBoundary
  last : SelBoundary
  deriving DecidableEq, Repr

/-- One (span id, position) pair of the resolver output
(`HighlightSelection` in `selection_utils.ts`). -/
structure HighlightSelection where
  spanId : String
  position : Pos
  deriving DecidableEq, Repr

/-- The resolver output (`SelectionInfo` in `selection_utils.ts`); the anchor
element is irrelevant to the offset algebra and is not modelled beyond its
existence. -/
structure SelectionInfo where
  selectedText : String
  highlightSelection : List HighlightSelection
  deriving DecidableEq, Repr

/-- The sibling walk of `getSelectionInfo` (lines 117-128): starting from the
start unit's index, repeatedly move to the next sibling, collecting every
`<lumi-span>` element (with its index), until the end unit's index is reached
(the end unit itself is collected) or the siblings run out. -/
def collectFrom (nodes : List SibNode) (stopIdx : Nat) (cur : Nat) :
    List (Nat × LumiUnit) :=
  if cur = stopIdx then []
  else
    match h : nodes[cur + 1]? with
    | none => []
    | some (SibNode.lumi u) => (cur + 1, u) :: collectFrom nodes stopIdx (cur + 1)
    | some SibNode.other => collectFrom nodes stopIdx (cur + 1)
termination_by nodes.length - cur
decreasing_by
  all_goals
    have hlt : cur + 1 < nodes.length := by
      by_contra hge
      rw [List.getElem?_eq_none (by omega)] at h
      exact Option.noConfusion h
    omega

/-- The full `allLumiSpans` list of `getSelectionInfo`, with indices: the
start unit, then — when the boundaries anchor in different units — the
collected siblings. -/
def collectedUnits (nodes : List SibNode) (startIdx stopIdx : Nat)
    (su : LumiUnit) : List (Nat × LumiUnit) :=
  if startIdx = stopIdx then [(startIdx, su)]
  else (startIdx, su) :: collectFrom nodes stopIdx startIdx

/-- The pair pushed for one collected unit (`getSelectionInfo` lines
130-149): the start unit's start offset and the end unit's end offset come
from the actual boundaries, a unit that is neither gets the full range `0 ..
textContent.length`; the pushed `endIndex` is the computed end offset plus
one. Units with an empty id are skipped. -/
def pairsFor (sel : Sel) (su eu : LumiUnit) (units : List (Nat × LumiUnit)) :
    List HighlightSelection :=
  (units.filter (fun p => p.2.uid ≠ "")).map
    (fun p =>
      let startOffset : Int :=
        if p.1 = sel.first.node then
          getOffsetInLumiSpan su.children sel.first.child
        else 0
      let endOffset : Int :=
        if p.1 = sel.last.node then
          getOffsetInLumiSpan eu.children sel.last.child
        else ((unitText p.2).length : Int)
      { spanId := p.2.uid, position := ⟨startOffset, endOffset + 1⟩ })

/-- Whether a character belongs to the whitespace class the selection text is
trimmed by. -/
def isWhitespaceChar (c : Char) : Bool :=
  c = ' ' ∨ c = '\t' ∨ c = '\n' ∨ c = '\r'

/-- The JS `String.prototype.trim` over the selection text: strip whitespace
from both ends. -/
def jsTrim (s : String) : String :=
  String.mk
    (((s.data.dropWhile isWhitespaceChar).reverse.dropWhile
        isWhitespaceChar).reverse)

/-- `selection_utils.ts` `getSelectionInfo`: `none` when the trimmed text is
empty, there is no range, or a boundary does not resolve to a `<lumi-span>`
with a non-empty id; otherwise the collected units with their offset pairs.
(The nearest plain-`span` anchor-element lookup always succeeds under the
one-element-per-character rendering convention, every boundary's container
being itself a `span`, and is not modelled further.) -/
def getSelectionInfo (sel : Sel) : Option SelectionInfo :=
  if ((jsTrim sel.text).length = 0) then none
  else if ¬sel.hasRange then none
  else
    match sel.nodes[sel.first.node]?, sel.nodes[sel.last.node]? with
    | some (SibNode.lumi su), some (SibNode.lumi eu) =>
      if su.uid = "" ∨ eu.uid = "" then none
      else
        let units := collectedUnits sel.nodes sel.first.node sel.last.node su
        some { selectedText := jsTrim sel.text,
               highlightSelection := pairsFor sel su eu units }
    | _, _ => none

mutual

/-- Modelled from the spec: list content, an ordered list of list items
(`ListContent` in `shared/lumi_doc.ts`; the implementation of the document
index, `LumiDocManager`, is not in the source tree, so the index is modelled
from the specification, section 4.1, and checked against the repository's
`LumiDocManager` test fixtures). -/
inductive ListContentM : Type where
  | mk : List ListItemM → ListContentM

/-- Modelled from the spec: a list item with its spans and an optional nested
sub-list (`ListItem` in `shared/lumi_doc.ts`). -/
inductive ListItemM : Type where
  | mk : List LumiSpan → Option ListContentM → ListItemM

end

/-- Modelled from the spec: a content block, a tagged union of text content,
list content, or image/figure/html-figure content with an optional caption
span (`LumiContent` in `shared/lumi_doc.ts`). -/
inductive LumiContentM : Type where
  | textC : List LumiSpan → LumiContentM
  | listC : ListContentM → LumiContentM
  | imageC : Option LumiSpan → LumiContentM
  | figureC : Option LumiSpan → LumiContentM
  | htmlFigureC : Option LumiSpan → LumiContentM

/-- Modelled from the spec: a section with its identifier, ordered content
blocks, and ordered subsections (`LumiSection` in `shared/lumi_doc.ts`). -/
inductive LumiSectionM : Type where
  | mk : String → List LumiContentM → List LumiSectionM → LumiSectionM

/-- A section's identifier. -/
def LumiSectionM.sid : LumiSectionM → String
  | .mk i _ _ => i

/-- A section's own content blocks. -/
def LumiSectionM.contents : LumiSectionM → List LumiContentM
  | .mk _ cs _ => cs

/-- A section's subsections. -/
def LumiSectionM.subSections : LumiSectionM → List LumiSectionM
  | .mk _ _ ss => ss

/-- Modelled from the spec: the document, with abstract content blocks,
top-level sections, and references (`LumiDoc` in `shared/lumi_doc.ts`). -/
structure LumiDocM where
  abstractContents : List LumiContentM
  sections : List LumiSectionM
  references : List (String × LumiSpan)

mutual

/-- The spans of one list item, walking recursively into its sub-list. -/
def listItemSpans : ListItemM → List LumiSpan
  | .mk spans sub =>
    spans ++
      (match sub with
       | some lc => listContentSpans lc
       | none => [])

/-- The spans of list content: the spans of each item in order. -/
def listContentSpans : ListContentM → List LumiSpan
  | .mk items => listItemsSpans items

/-- The spans of a list of list items. -/
def listItemsSpans : List ListItemM → List LumiSpan
  | [] => []
  | item :: rest => listItemSpans item ++ listItemsSpans rest

end

/-- The spans of one content block: text spans, recursively collected list
spans, or the caption span of an image/figure/html-figure block. -/
def contentSpans : LumiContentM → List LumiSpan
  | .textC spans => spans
  | .listC lc => listContentSpans lc
  | .imageC cap => cap.toList
  | .figureC cap => cap.toList
  | .htmlFigureC cap => cap.toList

/-- The spans directly owned by a section: the spans of its own content
blocks, subsections excluded. -/
def sectionOwnSpans (s : LumiSectionM) : List LumiSpan :=
  s.contents.flatMap contentSpans

mutual

/-- Modelled from the spec: the span-id → owning-section-id pairs contributed
by one section, depth-first and pre-order — the section's own content spans
are attributed to the section itself, then its subsections are walked, each
span being owned by its nearest ancestor section. -/
def sectionPairs : LumiSectionM → List (String × String)
  | .mk i cs ss =>
    ((LumiSectionM.mk i cs ss).contents.flatMap contentSpans).map
      (fun sp => (sp.id, i)) ++ sectionsPairs ss

/-- The pairs contributed by a list of sections, in order. -/
def sectionsPairs : List LumiSectionM → List (String × String)
  | [] => []
  | s :: rest => sectionPairs s ++ sectionsPairs rest

end

/-- Modelled from the spec: the document index's span-id → owning-section-id
mapping, built in one pass over the top-level sections (abstract spans are
walked for the span lookup but never attributed to a section). -/
def spanSectionMap (doc : LumiDocM) : List (String × String) :=
  sectionsPairs doc.sections

/-- Modelled from the spec: `LumiDocManager.getSectionForSpan`, returning the
owning section's id, or `none` for an abstract span or an unknown id. -/
def getSectionForSpan (doc : LumiDocM) (spanId : String) : Option String :=
  (spanSectionMap doc).lookup spanId

mutual

/-- All sections of a section subtree, the section itself first. -/
def sectionsOf : LumiSectionM → List LumiSectionM
  | .mk i cs ss => LumiSectionM.mk i cs ss :: sectionsOfList ss

/-- All sections of a section forest. -/
def sectionsOfList : List LumiSectionM → List LumiSectionM
  | [] => []
  | s :: rest => sectionsOf s ++ sectionsOfList rest

end

/-- All sections of a document (top-level sections and, recursively, all
subsections). -/
def allSections (doc : LumiDocM) : List LumiSectionM :=
  sectionsOfList doc.sections

/-! ## Helper lemmas: highlight store -/

theorem storeGet_storeSet_self (st : HighlightStore) (k : String)
    (v : List Highlight) : storeGet (storeSet st k v) k = some v := by
  induction st with
  | nil => simp [storeSet, storeGet]
  | cons p rest ih =>
    obtain ⟨k', v'⟩ := p
    by_cases h : k' = k
    · simp [storeSet, storeGet, h]
    · simp [storeSet, storeGet, h, ih]

theorem storeGet_storeSet_other (st : HighlightStore) (k k' : String)
    (v : List Highlight) (h : k' ≠ k) :
    storeGet (storeSet st k v) k' = storeGet st k' := by
  induction st with
  | nil => simp [storeSet, storeGet, Ne.symm h]
  | cons p rest ih =>
    obtain ⟨k0, v0⟩ := p
    by_cases h0 : k0 = k
    · subst h0
      simp [storeSet, storeGet, Ne.symm h]
    · by_cases h1 : k0 = k'
      · simp [storeSet, storeGet, h0, h1, h]
      · simp [storeSet, storeGet, h0, h1, ih]

theorem storeGet_storeDelete_self (st : HighlightStore) (k : String)
    (hnd : (st.map Prod.fst).Nodup) :
    storeGet (storeDelete st k) k = none := by
  induction st with
  | nil => simp [storeDelete, storeGet]
  | cons p rest ih =>
    obtain ⟨k0, v0⟩ := p
    simp only [List.map_cons, List.nodup_cons] at hnd
    by_cases h0 : k0 = k
    · subst h0
      simp only [storeDelete, if_pos rfl]
      cases hget : storeGet rest k0 with
      | none => exact hget
      | some v =>
        exfalso
        apply hnd.1
        clear ih hnd
        induction rest with
        | nil => simp [storeGet] at hget
        | cons q qs ihq =>
          obtain ⟨kq, vq⟩ := q
          simp only [storeGet] at hget
          by_cases hq : kq = k0
          · simp [hq]
          · simp only [if_neg hq] at hget
            simp [ihq hget]
    · simp [storeDelete, storeGet, h0, ih hnd.2]

theorem storeGet_storeDelete_other (st : HighlightStore) (k k' : String)
    (h : k' ≠ k) : storeGet (storeDelete st k) k' = storeGet st k' := by
  induction st with
  | nil => simp [storeDelete]
  | cons p rest ih =>
    obtain ⟨k0, v0⟩ := p
    by_cases h0 : k0 = k
    · subst h0
      simp [storeDelete, storeGet, Ne.symm h]
    · by_cases h1 : k0 = k'
      · simp [storeDelete, storeGet, h0, h1, h]
      · simp [storeDelete, storeGet, h0, h1, ih]

theorem storeDelete_not_mem (st : HighlightStore) (k : String)
    (h : k ∉ st.map Prod.fst) : storeDelete st k = st := by
  induction st with
  | nil => simp [storeDelete]
  | cons p rest ih =>
    obtain ⟨k0, v0⟩ := p
    simp only [List.map_cons, List.mem_cons] at h
    push_neg at h
    simp [storeDelete, Ne.symm h.1, ih h.2]

theorem storeGet_not_mem (st : HighlightStore) (k : String)
    (h : k ∉ st.map Prod.fst) : storeGet st k = none := by
  induction st with
  | nil => simp [storeGet]
  | cons p rest ih =>
    obtain ⟨k0, v0⟩ := p
    simp only [List.map_cons, List.mem_cons] at h
    push_neg at h
    simp [storeGet, Ne.symm h.1, ih h.2]

theorem getSpanHighlights_addHighlights (st : HighlightStore)
    (hs : List Highlight) (x : String) :
    getSpanHighlights (addHighlights st hs) x =
      getSpanHighlights st x ++ hs.filter (fun h => h.spanId = x) := by
  induction hs generalizing st with
  | nil => simp [addHighlights]
  | cons h rest ih =>
    have step : addHighlights st (h :: rest) =
        addHighlights
          (storeSet st h.spanId ((storeGet st h.spanId).getD [] ++ [h]))
          rest := rfl
    rw [step, ih]
    by_cases hx : h.spanId = x
    · subst hx
      simp [getSpanHighlights, storeGet_storeSet_self]
    · rw [List.filter_cons]
      simp only [hx, decide_eq_true_eq, if_neg]
      unfold getSpanHighlights
      rw [storeGet_storeSet_other st h.spanId x _ (fun hh => hx hh.symm)]
      simp [hx]

theorem storeGet_storeDelete_none (st : HighlightStore) (i x : String)
    (h : storeGet st x = none) : storeGet (storeDelete st i) x = none := by
  induction st with
  | nil => simpa [storeDelete] using h
  | cons p rest ih =>
    obtain ⟨k0, v0⟩ := p
    simp only [storeGet] at h
    by_cases hx : k0 = x
    · simp [hx] at h
    · simp only [if_neg hx] at h
      by_cases h0 : k0 = i
      · simpa [storeDelete, h0] using h
      · simp [storeDelete, storeGet, h0, hx, ih h]

theorem storeGet_removeHighlights_none (st : HighlightStore)
    (ids : List String) (x : String) (h : storeGet st x = none) :
    storeGet (removeHighlights st ids) x = none := by
  induction ids generalizing st with
  | nil => simpa [removeHighlights] using h
  | cons i rest ih =>
    have step : removeHighlights st (i :: rest) =
        removeHighlights (storeDelete st i) rest := rfl
    rw [step]
    exact ih _ (storeGet_storeDelete_none st i x h)

theorem nodup_keys_storeDelete (st : HighlightStore) (i : String)
    (hnd : (st.map Prod.fst).Nodup) :
    ((storeDelete st i).map Prod.fst).Nodup := by
  induction st with
  | nil => simp [storeDelete]
  | cons p ps ihp =>
    obtain ⟨k0, v0⟩ := p
    simp only [List.map_cons, List.nodup_cons] at hnd
    by_cases h0 : k0 = i
    · simpa [storeDelete, h0] using hnd.2
    · simp only [storeDelete, if_neg h0, List.map_cons, List.nodup_cons]
      refine ⟨fun hmem => ?_, ihp hnd.2⟩
      apply hnd.1
      clear ihp hnd
      induction ps with
      | nil => simp [storeDelete] at hmem
      | cons q qs ihq =>
        obtain ⟨kq, vq⟩ := q
        by_cases hq : kq = i
        · simp only [storeDelete, if_pos hq] at hmem
          simp [List.mem_cons, hmem]
        · simp only [storeDelete, if_neg hq, List.map_cons,
            List.mem_cons] at hmem
          rcases hmem with hmem | hmem
          · simp [hmem]
          · simp [List.mem_cons, ihq hmem]

theorem getSpanHighlights_removeHighlights_mem (st : HighlightStore)
    (ids : List String) (x : String) (hx : x ∈ ids)
    (hnd : (st.map Prod.fst).Nodup) :
    getSpanHighlights (removeHighlights st ids) x = [] := by
  induction ids generalizing st with
  | nil => simp at hx
  | cons i rest ih =>
    have step : removeHighlights st (i :: rest) =
        removeHighlights (storeDelete st i) rest := rfl
    rw [step]
    rcases List.mem_cons.mp hx with hx | hx
    · subst hx
      unfold getSpanHighlights
      rw [storeGet_removeHighlights_none _ rest x
        (storeGet_storeDelete_self st x hnd)]
      rfl
    · exact ih _ hx (nodup_keys_storeDelete st i hnd)

theorem getSpanHighlights_removeHighlights_not_mem (st : HighlightStore)
    (ids : List String) (x : String) (hx : x ∉ ids) :
    getSpanHighlights (removeHighlights st ids) x = getSpanHighlights st x := by
  induction ids generalizing st with
  | nil => simp [removeHighlights]
  | cons i rest ih =>
    have step : removeHighlights st (i :: rest) =
        removeHighlights (storeDelete st i) rest := rfl
    rw [step]
    simp only [List.mem_cons] at hx
    push_neg at hx
    rw [ih _ hx.2]
    unfold getSpanHighlights
    rw [storeGet_storeDelete_other st i x hx.1]

/-! ## Claim C7: highlight store algebra -/

/-- C7: For every highlight store state: adding highlights appends each one to
its target span's existing list (never overwriting), so the highlights added
for span `x` appear, in append order, after any pre-existing ones; removing a
span id empties that span's list (on a store with unique keys, as every store
reachable from the empty `Map` has) while other spans' lists are unchanged, and
removing an unknown id is a no-op on the store; clearing empties every span's
list; querying a span id with no entry returns the empty list, never an
error. -/
theorem highlight_store_algebra :
    (∀ (st : HighlightStore) (hs : List Highlight) (x : String),
      getSpanHighlights (addHighlights st hs) x =
        getSpanHighlights st x ++ hs.filter (fun h => h.spanId = x)) ∧
    (∀ (st : HighlightStore) (ids : List String) (x : String),
      (st.map Prod.fst).Nodup → x ∈ ids →
      getSpanHighlights (removeHighlights st ids) x = []) ∧
    (∀ (st : HighlightStore) (ids : List String) (y : String),
      y ∉ ids →
      getSpanHighlights (removeHighlights st ids) y = getSpanHighlights st y) ∧
    (∀ (st : HighlightStore) (i : String),
      i ∉ st.map Prod.fst → storeDelete st i = st) ∧
    (∀ x : String, getSpanHighlights clearHighlights x = []) ∧
    (∀ (st : HighlightStore) (x : String),
      x ∉ st.map Prod.fst → getSpanHighlights st x = []) := by
  refine ⟨getSpanHighlights_addHighlights,
    fun st ids x hnd hx => getSpanHighlights_removeHighlights_mem st ids x hx hnd,
    fun st ids y hy => getSpanHighlights_removeHighlights_not_mem st ids y hy,
    storeDelete_not_mem,
    fun x => rfl,
    fun st x hx => ?_⟩
  unfold getSpanHighlights
  rw [storeGet_not_mem st x hx]
  rfl

/-- Fixture highlights for concrete store checks. -/
def hlA : Highlight := ⟨"yellow", "x", none, none⟩

/-- Fixture highlight targeting span `x` with a position. -/
def hlC : Highlight := ⟨"blue", "x", some ⟨1, 3⟩, none⟩

/-- Fixture highlight targeting span `y`. -/
def hlD : Highlight := ⟨"green", "y", none, none⟩

/-- Fixture store with two span entries. -/
def stW : HighlightStore := [("x", [hlA]), ("y", [hlD])]

/-- Witness for C7 at concrete inputs: appending, removal of a present and an
absent id, clearing, and empty-query behavior, all evaluated. -/
theorem highlight_store_algebra_witness :
    (getSpanHighlights (addHighlights stW [hlC, hlD]) "x" =
      getSpanHighlights stW "x" ++
        List.filter (fun h => h.spanId = "x") [hlC, hlD]) ∧
    getSpanHighlights (removeHighlights stW ["x"]) "x" = [] ∧
    getSpanHighlights (removeHighlights stW ["x"]) "y" =
      getSpanHighlights stW "y" ∧
    storeDelete stW "zz" = stW ∧
    getSpanHighlights clearHighlights "x" = [] ∧
    getSpanHighlights stW "zz" = [] := by
  refine ⟨highlight_store_algebra.1 stW [hlC, hlD] "x",
    highlight_store_algebra.2.1 stW ["x"] "x" (by decide) (by decide),
    highlight_store_algebra.2.2.1 stW ["x"] "y" (by decide),
    highlight_store_algebra.2.2.2.1 stW "zz" (by decide),
    highlight_store_algebra.2.2.2.2.1 "zz",
    highlight_store_algebra.2.2.2.2.2 stW "zz" (by decide)⟩

/-! ## Claim C1: document index section ownership -/

theorem lookup_eq_some_of_mem_nodup {β : Type} (l : List (String × β))
    (k : String) (v : β) (hmem : (k, v) ∈ l)
    (hnd : (l.map Prod.fst).Nodup) : l.lookup k = some v := by
  induction l with
  | nil => simp at hmem
  | cons p rest ih =>
    obtain ⟨k0, v0⟩ := p
    simp only [List.map_cons, List.nodup_cons] at hnd
    rcases List.mem_cons.mp hmem with h | h
    · injection h with h1 h2
      subst h1; subst h2
      simp [List.lookup]
    · by_cases hk : k0 = k
      · subst hk
        exfalso
        exact hnd.1 (List.mem_map.mpr ⟨(k0, v), h, rfl⟩)
      · have hbe : (k == k0) = false := by
          simp only [beq_eq_false_iff_ne, ne_eq]
          exact fun hh => hk hh.symm
        simp [List.lookup, hbe, ih h hnd.2]

theorem lookup_eq_none_of_not_mem {β : Type} (l : List (String × β))
    (k : String) (hk : k ∉ l.map Prod.fst) : l.lookup k = none := by
  induction l with
  | nil => simp [List.lookup]
  | cons p rest ih =>
    obtain ⟨k0, v0⟩ := p
    simp only [List.map_cons, List.mem_cons] at hk
    push_neg at hk
    have hbe : (k == k0) = false := by
      simp [hk.1]
    simp [List.lookup, hbe, ih hk.2]

mutual

theorem mem_sectionPairs_of (s : LumiSectionM) (sec : LumiSectionM)
    (sid : String) (hmem : sec ∈ sectionsOf s)
    (hsid : sid ∈ (sectionOwnSpans sec).map LumiSpan.id) :
    (sid, sec.sid) ∈ sectionPairs s := by
  cases s with
  | mk i cs ss =>
    rw [sectionsOf] at hmem
    rcases List.mem_cons.mp hmem with h | h
    · subst h
      rw [sectionPairs]
      apply List.mem_append_left
      simp only [sectionOwnSpans, List.mem_map] at hsid
      obtain ⟨sp, hsp, hid⟩ := hsid
      exact List.mem_map.mpr ⟨sp, hsp, by simp [LumiSectionM.sid, hid]⟩
    · rw [sectionPairs]
      exact List.mem_append_right _ (mem_sectionsPairs_of ss sec sid h hsid)

theorem mem_sectionsPairs_of (l : List LumiSectionM) (sec : LumiSectionM)
    (sid : String) (hmem : sec ∈ sectionsOfList l)
    (hsid : sid ∈ (sectionOwnSpans sec).map LumiSpan.id) :
    (sid, sec.sid) ∈ sectionsPairs l := by
  cases l with
  | nil => rw [sectionsOfList] at hmem; simp at hmem
  | cons s rest =>
    rw [sectionsOfList] at hmem
    rw [sectionsPairs]
    rcases List.mem_append.mp hmem with h | h
    · exact List.mem_append_left _ (mem_sectionPairs_of s sec sid h hsid)
    · exact List.mem_append_right _ (mem_sectionsPairs_of rest sec sid h hsid)

end

/-- Fixture span with a given id (text and tags are irrelevant to the
index). -/
def ixSpan (i : String) : LumiSpan := ⟨i, "t", []⟩

/-- Fixture subsection holding `span-2`, mirroring the repository's
`LumiDocManager` test fixture. -/
def subSecFix : LumiSectionM := .mk "sub-section" [.textC [ixSpan "span-2"]] []

/-- Fixture top-level section holding `span-1`, a list with `span-3`, and the
subsection. -/
def topSecFix : LumiSectionM :=
  .mk "top-section"
    [.textC [ixSpan "span-1"], .listC (.mk [.mk [ixSpan "span-3"] none])]
    [subSecFix]

/-- Fixture document with an abstract span and one top-level section. -/
def docFix : LumiDocM :=
  ⟨[.textC [ixSpan "abstract-span"]], [topSecFix], []⟩

/-- C1 counterexample: `span-2` lives in a subsection of the top-level section
`top-section`, yet `getSectionForSpan` returns the subsection `sub-section`,
not the top-level section — exactly as the repository's `LumiDocManager` test
expects. -/
theorem getSectionForSpan_subsection_counterexample :
    getSectionForSpan docFix "span-2" = some subSecFix.sid ∧
    getSectionForSpan docFix "span-2" ≠ some topSecFix.sid := by
  constructor
  · rfl
  · intro h
    exact Option.noConfusion h
      (fun hh => by simp [LumiSectionM.sid, topSecFix] at hh)

/-- C1 (amended): `getSectionForSpan` returns the id of the *nearest*
containing section — the section whose own content list (walked through list
items and captions) directly holds the span; for a span directly in top-level
section S's content that is S, but for a span inside a subsection it is that
subsection, not the top-level ancestor. For a span of the abstract and for an
unknown span id (neither of which occurs among the index's keys) it returns
`none`. The span-ids-unique document invariant is assumed as key
nodup-ness. -/
theorem getSectionForSpan_nearest :
    (∀ (doc : LumiDocM) (sec : LumiSectionM) (sid : String),
      sec ∈ allSections doc →
      sid ∈ (sectionOwnSpans sec).map LumiSpan.id →
      ((spanSectionMap doc).map Prod.fst).Nodup →
      getSectionForSpan doc sid = some sec.sid) ∧
    (∀ (doc : LumiDocM) (sid : String),
      sid ∉ (spanSectionMap doc).map Prod.fst →
      getSectionForSpan doc sid = none) := by
  constructor
  · intro doc sec sid hmem hsid hnd
    exact lookup_eq_some_of_mem_nodup _ _ _
      (mem_sectionsPairs_of doc.sections sec sid hmem hsid) hnd
  · intro doc sid hsid
    exact lookup_eq_none_of_not_mem _ _ hsid

/-- Witness for the amended C1 on the fixture document: the top-level section
owns its direct span, the subsection owns its own span, and the abstract span
and an unknown id resolve to `none`. -/
theorem getSectionForSpan_nearest_witness :
    getSectionForSpan docFix "span-1" = some topSecFix.sid ∧
    getSectionForSpan docFix "span-2" = some subSecFix.sid ∧
    getSectionForSpan docFix "span-3" = some topSecFix.sid ∧
    getSectionForSpan docFix "abstract-span" = none ∧
    getSectionForSpan docFix "nonexistent" = none := by
  have hall : allSections docFix = [topSecFix, subSecFix] := rfl
  refine ⟨?_, ?_, ?_, ?_, ?_⟩
  · exact getSectionForSpan_nearest.1 docFix topSecFix "span-1"
      (by rw [hall]; exact List.mem_cons_self _ _)
      (by simp [sectionOwnSpans, topSecFix, ixSpan, contentSpans,
        listContentSpans, listItemsSpans, listItemSpans, LumiSectionM.contents])
      (by decide)
  · exact getSectionForSpan_nearest.1 docFix subSecFix "span-2"
      (by rw [hall]; exact List.mem_cons_of_mem _ (List.mem_cons_self _ _))
      (by simp [sectionOwnSpans, subSecFix, ixSpan, contentSpans,
        LumiSectionM.contents])
      (by decide)
  · exact getSectionForSpan_nearest.1 docFix topSecFix "span-3"
      (by rw [hall]; exact List.mem_cons_self _ _)
      (by simp [sectionOwnSpans, topSecFix, ixSpan, contentSpans,
        listContentSpans, listItemsSpans, listItemSpans, LumiSectionM.contents])
      (by decide)
  · exact getSectionForSpan_nearest.2 docFix "abstract-span" (by decide)
  · exact getSectionForSpan_nearest.2 docFix "nonexistent" (by decide)

/-! ## Claim C4: tag flattening -/

/-- Navigate a tag forest along a path of child indices, accumulating the
offset base: the base of the tag at the path is the sum of its ancestors'
relative start offsets (each ancestor's absolute start), starting from the
given accumulator. -/
def findPath : List InnerTag → List Nat → Int → Option (InnerTag × Int)
  | _, [], _ => none
  | ts, [i], acc => ts[i]?.map (fun t => (t, acc))
  | ts, i :: j :: rest, acc =>
    ts[i]?.bind
      (fun t => findPath t.childrenList (j :: rest)
        (t.position.startIndex + acc))

theorem flattenTags_cons (t : InnerTag) (rest : List InnerTag) (off : Int) :
    flattenTags (t :: rest) off =
      InnerTag.mk t.tagName
          ⟨t.position.startIndex + off, t.position.endIndex + off⟩
          t.metadata none ::
        (flattenTags t.childrenList (t.position.startIndex + off) ++
          flattenTags rest off) := by
  cases t with
  | mk n p m c =>
    cases c with
    | none =>
      simp [flattenTags, flattenOne, InnerTag.childrenList, InnerTag.tagName,
        InnerTag.position, InnerTag.metadata]
    | some cs =>
      simp [flattenTags, flattenOne, InnerTag.childrenList, InnerTag.tagName,
        InnerTag.position, InnerTag.metadata]

mutual

theorem children_cleared_flattenOne (t : InnerTag) (off : Int) (u : InnerTag)
    (hu : u ∈ flattenOne t off) : u.children = none := by
  cases t with
  | mk n p m c =>
    cases c with
    | none =>
      simp only [flattenOne] at hu
      rcases List.mem_cons.mp hu with h | h
      · subst h; rfl
      · simp at h
    | some cs =>
      simp only [flattenOne] at hu
      rcases List.mem_cons.mp hu with h | h
      · subst h; rfl
      · exact children_cleared_flattenTags cs _ u h

theorem children_cleared_flattenTags (ts : List InnerTag) (off : Int)
    (u : InnerTag) (hu : u ∈ flattenTags ts off) : u.children = none := by
  cases ts with
  | nil => simp only [flattenTags] at hu; simp at hu
  | cons t rest =>
    simp only [flattenTags] at hu
    rcases List.mem_append.mp hu with h | h
    · exact children_cleared_flattenOne t off u h
    · exact children_cleared_flattenTags rest off u h

end

theorem emit_mem_flattenTags (ts : List InnerTag) (t : InnerTag) (acc : Int)
    (ht : t ∈ ts) :
    InnerTag.mk t.tagName
        ⟨t.position.startIndex + acc, t.position.endIndex + acc⟩
        t.metadata none ∈ flattenTags ts acc := by
  induction ts with
  | nil => simp at ht
  | cons s rest ih =>
    rw [flattenTags_cons]
    rcases List.mem_cons.mp ht with h | h
    · subst h; exact List.mem_cons_self _ _
    · exact List.mem_cons_of_mem _ (List.mem_append_right _ (ih h))

theorem subtree_mem_flattenTags (ts : List InnerTag) (t x : InnerTag)
    (acc : Int) (ht : t ∈ ts)
    (hx : x ∈ flattenTags t.childrenList (t.position.startIndex + acc)) :
    x ∈ flattenTags ts acc := by
  induction ts with
  | nil => simp at ht
  | cons s rest ih =>
    rw [flattenTags_cons]
    rcases List.mem_cons.mp ht with h | h
    · subst h
      exact List.mem_cons_of_mem _ (List.mem_append_left _ hx)
    · exact List.mem_cons_of_mem _ (List.mem_append_right _ (ih h))

theorem findPath_emit_mem (p : List Nat) (ts : List InnerTag) (acc : Int)
    (t : InnerTag) (b : Int) (hp : findPath ts p acc = some (t, b)) :
    InnerTag.mk t.tagName
        ⟨t.position.startIndex + b, t.position.endIndex + b⟩
        t.metadata none ∈ flattenTags ts acc := by
  induction p generalizing ts acc with
  | nil => simp [findPath] at hp
  | cons i rest ih =>
    cases rest with
    | nil =>
      simp only [findPath, Option.map_eq_some'] at hp
      obtain ⟨t0, ht0, heq⟩ := hp
      cases heq
      exact emit_mem_flattenTags ts _ _ (List.getElem?_mem ht0)
    | cons j rest' =>
      simp only [findPath, Option.bind_eq_some] at hp
      obtain ⟨t0, ht0, hrec⟩ := hp
      exact subtree_mem_flattenTags ts t0 _ acc (List.getElem?_mem ht0)
        (ih _ _ hrec)

theorem findPath_base_step (p : List Nat) (ts : List InnerTag) (acc : Int)
    (j : Nat) (t t' : InnerTag) (b b' : Int)
    (hp : findPath ts p acc = some (t, b))
    (hq : findPath ts (p ++ [j]) acc = some (t', b')) :
    b' = t.position.startIndex + b := by
  induction p generalizing ts acc with
  | nil => simp [findPath] at hp
  | cons i rest ih =>
    cases rest with
    | nil =>
      simp only [findPath, Option.map_eq_some'] at hp
      obtain ⟨t0, ht0, heq⟩ := hp
      cases heq
      simp only [List.cons_append, List.nil_append, findPath, ht0,
        Option.some_bind] at hq
      simp only [findPath, Option.map_eq_some'] at hq
      obtain ⟨t1, _, heq1⟩ := hq
      injection heq1 with h3 h4
      omega
    | cons k rest' =>
      simp only [findPath, Option.bind_eq_some] at hp
      obtain ⟨t0, ht0, hrec⟩ := hp
      simp only [List.cons_append, findPath, ht0, Option.some_bind] at hq
      exact ih _ _ hrec hq

/-- C4: `flattenTags` emits in depth-first order — each tag (with its
`children` field cleared and its offsets shifted by the accumulated base)
immediately followed by its flattened subtree, whose base is this tag's
absolute start, before later siblings; consequently the tag reached by any
child-index path appears in the output with offsets equal to its own relative
offsets plus its base, and the base of a child path is the parent's relative
start plus the parent's own base (root base 0), i.e. the parent's absolute
start. -/
theorem flattenTags_depth_first :
    (∀ (ts : List InnerTag) (off : Int) (u : InnerTag),
      u ∈ flattenTags ts off → u.children = none) ∧
    (∀ (t : InnerTag) (rest : List InnerTag) (off : Int),
      flattenTags (t :: rest) off =
        InnerTag.mk t.tagName
            ⟨t.position.startIndex + off, t.position.endIndex + off⟩
            t.metadata none ::
          (flattenTags t.childrenList (t.position.startIndex + off) ++
            flattenTags rest off)) ∧
    (∀ (ts : List InnerTag) (p : List Nat) (t : InnerTag) (b : Int),
      findPath ts p 0 = some (t, b) →
      InnerTag.mk t.tagName
          ⟨t.position.startIndex + b, t.position.endIndex + b⟩
          t.metadata none ∈ flattenTags ts 0) ∧
    (∀ (ts : List InnerTag) (p : List Nat) (j : Nat) (t t' : InnerTag)
        (b b' : Int),
      findPath ts p 0 = some (t, b) → findPath ts (p ++ [j]) 0 = some (t', b') →
      b' = t.position.startIndex + b) :=
  ⟨children_cleared_flattenTags, flattenTags_cons,
    fun ts p t b hp => findPath_emit_mem p ts 0 t b hp,
    fun ts p j t t' b b' hp hq => findPath_base_step p ts 0 j t t' b b' hp hq⟩

/-- Fixture: 3-level nested tags from the repository's flattenTags test. -/
def tagU : InnerTag := .mk .underline ⟨2, 8⟩ [] none

/-- Fixture: middle-level italic tag holding the underline tag. -/
def tagI : InnerTag := .mk .italic ⟨5, 25⟩ [] (some [tagU])

/-- Fixture: second child of the bold tag. -/
def tagA2 : InnerTag := .mk .anchor ⟨30, 35⟩ [] none

/-- Fixture: root bold tag of the 3-level nesting. -/
def tagB : InnerTag := .mk .bold ⟨10, 50⟩ [] (some [tagI, tagA2])

/-- Witness for C4 on the repository's 3-level fixture: the emitted root has
cleared children, the head equation instantiates concretely, the grandchild
appears with absolute offsets 17..23, and the grandchild's base 15 is the
child's relative start 5 plus the child's base 10. -/
theorem flattenTags_depth_first_witness :
    (InnerTag.mk InnerTagName.bold ⟨10, 50⟩ [] none).children = none ∧
    flattenTags [tagB] 0 =
      InnerTag.mk tagB.tagName
          ⟨tagB.position.startIndex + 0, tagB.position.endIndex + 0⟩
          tagB.metadata none ::
        (flattenTags tagB.childrenList (tagB.position.startIndex + 0) ++
          flattenTags [] 0) ∧
    InnerTag.mk InnerTagName.underline ⟨17, 23⟩ [] none ∈ flattenTags [tagB] 0 ∧
    (15 : Int) = tagI.position.startIndex + 10 := by
  refine ⟨?_, flattenTags_depth_first.2.1 tagB [] 0, ?_, ?_⟩
  · exact flattenTags_depth_first.1 [tagB] 0 _
      (by
        rw [show flattenTags [tagB] 0 =
          [InnerTag.mk .bold ⟨10, 50⟩ [] none,
           InnerTag.mk .italic ⟨15, 35⟩ [] none,
           InnerTag.mk .underline ⟨17, 23⟩ [] none,
           InnerTag.mk .anchor ⟨40, 45⟩ [] none] from rfl]
        exact List.Mem.head _)
  · have h := flattenTags_depth_first.2.2.1 [tagB] [0, 0, 0] tagU 15 rfl
    simpa [tagU, InnerTag.position, InnerTag.tagName, InnerTag.metadata]
      using h
  · exact flattenTags_depth_first.2.2.2 [tagB] [0, 0] 0 tagI tagU 10 15 rfl rfl

/-! ## Claims C9 and C3: the per-character marking pass -/

/-- Whether a flattened tag's half-open range covers character index `i`. -/
def tagCovers (t : InnerTag) (i : Nat) : Bool :=
  decide (t.position.startIndex ≤ (i : Int)) &&
    decide ((i : Int) < t.position.endIndex)

/-- The start of a highlight's marked range (0 when the position is absent). -/
def hlStart (h : Highlight) : Int :=
  match h.position with
  | some p => p.startIndex
  | none => 0

/-- The end of a highlight's marked range (the span length when the position
is absent). -/
def hlEnd (h : Highlight) (n : Nat) : Int :=
  match h.position with
  | some p => p.endIndex
  | none => (n : Int)

/-- Whether a highlight's marked range covers character index `i` of a span
of length `n`. -/
def hlCovers (h : Highlight) (n : Nat) (i : Nat) : Bool :=
  decide (hlStart h ≤ (i : Int)) && decide ((i : Int) < hlEnd h n)

theorem markRangeFrom_length (s e : Int)
    (upd : FormattingCounter → FormattingCounter) (i : Nat)
    (cs : List FormattingCounter) :
    (markRangeFrom s e upd i cs).length = cs.length := by
  induction cs generalizing i with
  | nil => rfl
  | cons c rest ih => simp [markRangeFrom, ih]

theorem markRangeFrom_getElem? (s e : Int)
    (upd : FormattingCounter → FormattingCounter) (i j : Nat)
    (cs : List FormattingCounter) :
    (markRangeFrom s e upd i cs)[j]? =
      (cs[j]?).map
        (fun c =>
          if s ≤ ((i + j : Nat) : Int) ∧ ((i + j : Nat) : Int) < e then upd c
          else c) := by
  induction cs generalizing i j with
  | nil => simp [markRangeFrom]
  | cons c rest ih =>
    cases j with
    | zero => simp [markRangeFrom]
    | succ j' =>
      simp only [markRangeFrom, List.getElem?_cons_succ, ih (i + 1) j']
      have : i + 1 + j' = i + (j' + 1) := by omega
      rw [this]

theorem applyTags_getElem? (tags : List InnerTag)
    (cs : List FormattingCounter) (i : Nat) :
    (applyTags tags cs)[i]? =
      (cs[i]?).map
        (fun c =>
          (tags.filter (fun t => tagCovers t i)).foldl
            (fun c t => tagUpd t c) c) := by
  induction tags generalizing cs with
  | nil =>
    simp only [applyTags, List.foldl_nil, List.filter_nil]
    cases cs[i]? <;> simp
  | cons t ts ih =>
    have step : applyTags (t :: ts) cs =
        applyTags ts
          (markRange t.position.startIndex t.position.endIndex (tagUpd t) cs) :=
      rfl
    rw [step, ih]
    unfold markRange
    rw [markRangeFrom_getElem?]
    cases hcs : cs[i]? with
    | none => simp
    | some c =>
      simp only [Option.map_some']
      rw [List.filter_cons]
      by_cases hcov : tagCovers t i
      · have hcond : t.position.startIndex ≤ (i : Int) ∧
            (i : Int) < t.position.endIndex := by
          simp only [tagCovers, Bool.and_eq_true, decide_eq_true_eq] at hcov
          omega
        simp [hcov, hcond]
      · have hcond : ¬(t.position.startIndex ≤ (i : Int) ∧
            (i : Int) < t.position.endIndex) := by
          simp only [tagCovers, Bool.and_eq_true, decide_eq_true_eq] at hcov
          omega
        simp [hcov, hcond]

theorem applyHighlights_eq_fold (n : Nat) (hls : List Highlight)
    (cs : List FormattingCounter) :
    applyHighlights n hls cs =
      hls.foldl
        (fun acc h => markRange (hlStart h) (hlEnd h n) (hlUpd h) acc) cs := by
  unfold applyHighlights
  congr 1
  funext acc h
  cases hp : h.position <;> simp [hlStart, hlEnd, hp]

theorem applyHighlights_getElem? (n : Nat) (hls : List Highlight)
    (cs : List FormattingCounter) (i : Nat) :
    (applyHighlights n hls cs)[i]? =
      (cs[i]?).map
        (fun c =>
          (hls.filter (fun h => hlCovers h n i)).foldl
            (fun c h => hlUpd h c) c) := by
  rw [applyHighlights_eq_fold]
  induction hls generalizing cs with
  | nil =>
    simp only [List.foldl_nil, List.filter_nil]
    cases cs[i]? <;> simp
  | cons h hs ih =>
    simp only [List.foldl_cons]
    rw [ih]
    unfold markRange
    rw [markRangeFrom_getElem?]
    cases hcs : cs[i]? with
    | none => simp
    | some c =>
      simp only [Option.map_some']
      rw [List.filter_cons]
      by_cases hcov : hlCovers h n i
      · have hcond : hlStart h ≤ (i : Int) ∧ (i : Int) < hlEnd h n := by
          simp only [hlCovers, Bool.and_eq_true, decide_eq_true_eq] at hcov
          omega
        simp [hcov, hcond]
      · have hcond : ¬(hlStart h ≤ (i : Int) ∧ (i : Int) < hlEnd h n) := by
          simp only [hlCovers, Bool.and_eq_true, decide_eq_true_eq] at hcov
          omega
        simp [hcov, hcond]

theorem applyTags_length (tags : List InnerTag) (cs : List FormattingCounter) :
    (applyTags tags cs).length = cs.length := by
  induction tags generalizing cs with
  | nil => rfl
  | cons t ts ih =>
    have step : applyTags (t :: ts) cs =
        applyTags ts
          (markRange t.position.startIndex t.position.endIndex (tagUpd t) cs) :=
      rfl
    rw [step, ih]
    unfold markRange
    exact markRangeFrom_length _ _ _ _ _

theorem applyHighlights_length (n : Nat) (hls : List Highlight)
    (cs : List FormattingCounter) :
    (applyHighlights n hls cs).length = cs.length := by
  rw [applyHighlights_eq_fold]
  induction hls generalizing cs with
  | nil => rfl
  | cons h hs ih =>
    simp only [List.foldl_cons]
    rw [ih]
    unfold markRange
    exact markRangeFrom_length _ _ _ _ _

theorem markRange_clip (s e : Int)
    (upd : FormattingCounter → FormattingCounter)
    (cs : List FormattingCounter) :
    markRange s e upd cs =
      markRange (max s 0) (min e (cs.length : Int)) upd cs := by
  apply List.ext_getElem?
  intro j
  unfold markRange
  rw [markRangeFrom_getElem?, markRangeFrom_getElem?]
  cases hj : cs[j]? with
  | none => rfl
  | some c =>
    have hlt : j < cs.length := by
      by_contra hge
      rw [List.getElem?_eq_none (by omega)] at hj
      exact Option.noConfusion hj
    simp only [Option.map_some']
    by_cases hcond : s ≤ ((0 + j : Nat) : Int) ∧ ((0 + j : Nat) : Int) < e
    · rw [if_pos hcond, if_pos (by omega)]
    · rw [if_neg hcond, if_neg (by omega)]

/-- C9: the marking pass is total and bounds-checked — the counters list keeps
the span's length whatever the tag and highlight intervals are; each in-range
character's counter is exactly the fold of the updates of the intervals
covering that index (in pass order: tags, then highlights), so out-of-range
interval portions (dropped writes) cannot affect it; and a marking sweep is
unchanged by clipping its range to `[0, length)`. -/
theorem marking_pass_bounds :
    (∀ (span : LumiSpan) (hls : List Highlight),
      (countersFor span hls).length = span.text.length) ∧
    (∀ (span : LumiSpan) (hls : List Highlight) (i : Nat),
      i < span.text.length →
      (countersFor span hls)[i]? =
        some
          ((hls.filter (fun h => hlCovers h span.text.length i)).foldl
            (fun c h => hlUpd h c)
            (((flattenTags span.innerTags 0).filter
                (fun t => tagCovers t i)).foldl (fun c t => tagUpd t c) []))) ∧
    (∀ (s e : Int) (upd : FormattingCounter → FormattingCounter)
        (cs : List FormattingCounter),
      markRange s e upd cs =
        markRange (max s 0) (min e (cs.length : Int)) upd cs) := by
  refine ⟨?_, ?_, markRange_clip⟩
  · intro span hls
    unfold countersFor
    rw [applyHighlights_length, applyTags_length, List.length_replicate]
  · intro span hls i hi
    unfold countersFor
    rw [applyHighlights_getElem?, applyTags_getElem?]
    rw [List.getElem?_replicate, if_pos hi]
    rfl

/-- Fixture span for the marking-pass witness, with a wildly out-of-range
bold tag. -/
def wSpan : LumiSpan := ⟨"s", "ab", [.mk .bold ⟨-5, 99⟩ [] none]⟩

/-- Fixture highlight with an out-of-range end for the marking-pass
witness. -/
def wHl : Highlight := ⟨"yellow", "s", some ⟨1, 50⟩, none⟩

/-- Witness for C9 on a 2-character span with an out-of-range tag and
highlight: length preserved, the in-range character 1 receives exactly the
covering marks, and the sweep for the tag's range equals its clipped
sweep. -/
theorem marking_pass_bounds_witness :
    (countersFor wSpan [wHl]).length = wSpan.text.length ∧
    (countersFor wSpan [wHl])[1]? =
      some
        (([wHl].filter (fun h => hlCovers h wSpan.text.length 1)).foldl
          (fun c h => hlUpd h c)
          (((flattenTags wSpan.innerTags 0).filter
              (fun t => tagCovers t 1)).foldl (fun c t => tagUpd t c) [])) ∧
    markRange (-5) 99 (tagUpd (.mk .bold ⟨-5, 99⟩ [] none)) [[], []] =
      markRange (max (-5) 0) (min 99 (([[], []] :
          List FormattingCounter).length : Int))
        (tagUpd (.mk .bold ⟨-5, 99⟩ [] none)) [[], []] :=
  ⟨marking_pass_bounds.1 wSpan [wHl],
    marking_pass_bounds.2.1 wSpan [wHl] 1 (by decide),
    marking_pass_bounds.2.2 (-5) 99 (tagUpd (.mk .bold ⟨-5, 99⟩ [] none))
      [[], []]⟩

theorem counterGet_hlFold_gh (hs : List Highlight) (c0 : FormattingCounter)
    (hne : hs ≠ []) :
    counterGet (hs.foldl (fun c h => hlUpd h c) c0)
        CounterKey.generalHighlightKey =
      (hs.getLast?).map hlValue := by
  induction hs using List.reverseRecOn with
  | nil => exact absurd rfl hne
  | append_singleton l a ih =>
    rw [List.foldl_append, List.foldl_cons, List.foldl_nil]
    rw [List.getLast?_concat]
    rfl

/-- Fixture span for the overlapping-highlights counterexample. -/
def cxSpan : LumiSpan := ⟨"s1", "a", []⟩

/-- First (earlier-processed) whole-span highlight. -/
def cxH1 : Highlight := ⟨"yellow", "s1", none, none⟩

/-- Second (later-processed) whole-span highlight. -/
def cxH2 : Highlight := ⟨"blue", "s1", none, none⟩

/-- C3 counterexample: character 0 is covered by both highlights, yet the
per-character decision records only the later highlight's color object —
nothing of `yellow` survives, so the decision is not the set of all covering
highlights' colors/metadata. -/
theorem highlight_overlap_counterexample :
    hlCovers cxH1 cxSpan.text.length 0 = true ∧
    hlCovers cxH2 cxSpan.text.length 0 = true ∧
    ((countersFor cxSpan [cxH1, cxH2])[0]?).map
        (fun c => counterGet c CounterKey.generalHighlightKey) =
      some (some [(colorHighlightKey, "blue")]) ∧
    Obj.get [(colorHighlightKey, "blue")] colorHighlightKey ≠ some "yellow" := by
  decide

/-- C3 (amended): for a character index covered by one or more highlights, the
per-character decision's `GENERAL_HIGHLIGHT_KEY` entry is the color/metadata
object of the LAST covering highlight in processing order — each later
covering highlight overwrites the earlier ones at that index, rather than the
decision recording the set of all covering highlights. -/
theorem highlight_overlap_last_wins :
    ∀ (span : LumiSpan) (hls : List Highlight) (i : Nat)
      (c : FormattingCounter),
      (countersFor span hls)[i]? = some c →
      hls.filter (fun h => hlCovers h span.text.length i) ≠ [] →
      counterGet c CounterKey.generalHighlightKey =
        ((hls.filter (fun h => hlCovers h span.text.length i)).getLast?).map
          hlValue := by
  intro span hls i c hc hne
  unfold countersFor at hc
  rw [applyHighlights_getElem?, applyTags_getElem?] at hc
  cases hrep : (List.replicate span.text.length
      ([] : FormattingCounter))[i]? with
  | none => rw [hrep] at hc; exact Option.noConfusion hc
  | some c0 =>
    rw [hrep] at hc
    simp only [Option.map_some'] at hc
    injection hc with hc
    subst hc
    exact counterGet_hlFold_gh _ _ hne

/-- Witness for the amended C3 at the counterexample input: the recorded
decision for character 0 equals the last covering highlight's value — the
blue one. -/
theorem highlight_overlap_last_wins_witness :
    counterGet
        [(CounterKey.generalHighlightKey, [(colorHighlightKey, "blue")]),
         (CounterKey.generalHighlightKey, [(colorHighlightKey, "yellow")])]
        CounterKey.generalHighlightKey =
      (([cxH1, cxH2].filter
          (fun h => hlCovers h cxSpan.text.length 0)).getLast?).map hlValue :=
  highlight_overlap_last_wins cxSpan [cxH1, cxH2] 0
    [(CounterKey.generalHighlightKey, [(colorHighlightKey, "blue")]),
     (CounterKey.generalHighlightKey, [(colorHighlightKey, "yellow")])]
    (by decide) (by decide)

/-! ## Claims C10 and C8: the insertions map and its placement -/

theorem insGet_insPush (m : InsMap) (k k' : Int) (v : Insertion) :
    insGet (insPush m k v) k' =
      if k' = k then insGet m k ++ [v] else insGet m k' := by
  induction m with
  | nil =>
    by_cases h : k' = k
    · simp [insPush, insGet, h]
    · simp [insPush, insGet, h, Ne.symm h]
  | cons p rest ih =>
    obtain ⟨k0, v0⟩ := p
    by_cases h0 : k0 = k
    · subst h0
      by_cases h : k' = k0
      · simp [insPush, insGet, h]
      · simp [insPush, insGet, Ne.symm h, h]
    · by_cases h1 : k0 = k'
      · subst h1
        simp [insPush, insGet, h0]
      · simp [insPush, insGet, h0, h1, ih]

theorem insGet_insStep_fold (references : Option (List LumiReference))
    (footnotes : Option (List LumiFootnote))
    (referencedSpans : Option (List LumiSpan)) (tags : List InnerTag)
    (m0 : InsMap) (k : Int) :
    insGet (tags.foldl (insStep references footnotes referencedSpans) m0) k =
      insGet m0 k ++
        ((tags.filterMap (insOf references footnotes referencedSpans)).filter
          (fun p => p.1 = k)).map Prod.snd := by
  induction tags generalizing m0 with
  | nil => simp
  | cons t ts ih =>
    rw [List.foldl_cons, ih]
    cases hins : insOf references footnotes referencedSpans t with
    | none =>
      simp only [insStep, hins]
      simp only [List.filterMap_cons, hins]
    | some p =>
      obtain ⟨k0, v⟩ := p
      simp only [insStep, hins]
      rw [insGet_insPush]
      simp only [List.filterMap_cons, hins]
      rw [List.filter_cons]
      by_cases hk : k0 = k
      · subst hk
        simp
      · simp only [hk]
        simp [Ne.symm hk]

/-- C10: a reference, footnote, or cross-span-reference tag whose metadata id
is missing or empty, whose corresponding lookup list is absent, or whose
id(s) resolve to no entry of that list, produces no insertion: it does not
alter the insertions map (so it contributes no marker to the output, whose
insertion units are drawn solely from that map). -/
theorem unresolved_tag_contributes_nothing :
    ∀ (references : Option (List LumiReference))
      (footnotes : Option (List LumiFootnote))
      (referencedSpans : Option (List LumiSpan)) (t : InnerTag),
    ((t.tagName = InnerTagName.reference ∧
       (references = none ∨ t.metadata.get "id" = none ∨
        t.metadata.get "id" = some "" ∨
        (∀ idStr, t.metadata.get "id" = some idStr →
          ∀ rs, references = some rs →
          ∀ rid ∈ (idStr.splitOn ",").map (fun s => s.trim),
          ∀ r ∈ rs, ¬r.id = rid))) ∨
     (t.tagName = InnerTagName.footnote ∧
       (footnotes = none ∨ t.metadata.get "id" = none ∨
        t.metadata.get "id" = some "" ∨
        (∀ fid, t.metadata.get "id" = some fid →
          ∀ ns, footnotes = some ns → ∀ note ∈ ns, ¬note.id = fid))) ∨
     (t.tagName = InnerTagName.spanReference ∧
       (referencedSpans = none ∨ t.metadata.get "id" = none ∨
        t.metadata.get "id" = some "" ∨
        (∀ rid, t.metadata.get "id" = some rid →
          ∀ ss, referencedSpans = some ss → ∀ s ∈ ss, ¬s.id = rid)))) →
    insOf references footnotes referencedSpans t = none ∧
    (∀ m, insStep references footnotes referencedSpans m t = m) ∧
    (∀ (span : LumiSpan) (pre post : List InnerTag),
      span.innerTags = pre ++ t :: post →
      createInsertionsMap span references footnotes referencedSpans =
        createInsertionsMap ⟨span.id, span.text, pre ++ post⟩ references
          footnotes referencedSpans) := by
  intro references footnotes referencedSpans t hcond
  have hnone : insOf references footnotes referencedSpans t = none := by
    rcases hcond with ⟨htag, hc⟩ | ⟨htag, hc⟩ | ⟨htag, hc⟩
    · unfold insOf
      rw [htag]
      simp only [if_pos rfl]
      cases hid : t.metadata.get "id" with
      | none => cases references <;> rfl
      | some idStr =>
        cases href : references with
        | none => rfl
        | some rs =>
          rcases hc with hc | hc | hc | hc
          · exact absurd href (by rw [hc]; exact fun h => Option.noConfusion h)
          · rw [hid] at hc; exact Option.noConfusion hc
          · rw [hid] at hc
            injection hc with hc
            subst hc
            simp
          · have hemp : idStr = "" ∨
                ((idStr.splitOn ",").map (fun s => s.trim)).filterMap
                  (fun refId =>
                    (rs.findIdx? (fun r => r.id = refId)).map
                      (fun i => (i + 1, refId))) = [] := by
              right
              rw [List.filterMap_eq_nil_iff]
              intro rid hrid
              have hfind : rs.findIdx? (fun r => r.id = rid) = none := by
                rw [List.findIdx?_eq_none_iff]
                intro r hr
                simpa using hc idStr hid rs href rid hrid r hr
              simp [hfind]
            rcases hemp with hemp | hemp
            · simp [hemp]
            · by_cases hstr : idStr = ""
              · simp [hstr]
              · simp only [if_neg hstr, hemp]
                simp
    · unfold insOf
      rw [htag]
      have h1 : ¬(InnerTagName.footnote = InnerTagName.reference) := by decide
      simp only [if_neg h1, if_pos rfl]
      cases hid : t.metadata.get "id" with
      | none => cases footnotes <;> rfl
      | some fid =>
        cases hfn : footnotes with
        | none => rfl
        | some ns =>
          rcases hc with hc | hc | hc | hc
          · exact absurd hfn (by rw [hc]; exact fun h => Option.noConfusion h)
          · rw [hid] at hc; exact Option.noConfusion hc
          · rw [hid] at hc
            injection hc with hc
            subst hc
            simp
          · have hfind : ns.findIdx? (fun note => note.id = fid) = none := by
              rw [List.findIdx?_eq_none_iff]
              intro note hnote
              simpa using hc fid hid ns hfn note hnote
            by_cases hstr : fid = ""
            · simp [hstr]
            · simp [if_neg hstr, hfind]
    · unfold insOf
      rw [htag]
      have h1 : ¬(InnerTagName.spanReference = InnerTagName.reference) := by
        decide
      have h2 : ¬(InnerTagName.spanReference = InnerTagName.footnote) := by
        decide
      simp only [if_neg h1, if_neg h2, if_pos rfl]
      cases hid : t.metadata.get "id" with
      | none => cases referencedSpans <;> rfl
      | some rid =>
        cases hrs : referencedSpans with
        | none => rfl
        | some ss =>
          rcases hc with hc | hc | hc | hc
          · exact absurd hrs (by rw [hc]; exact fun h => Option.noConfusion h)
          · rw [hid] at hc; exact Option.noConfusion hc
          · rw [hid] at hc
            injection hc with hc
            subst hc
            simp
          · have hfind : ss.findIdx? (fun s => s.id = rid) = none := by
              rw [List.findIdx?_eq_none_iff]
              intro s hs
              simpa using hc rid hid ss hrs s hs
            by_cases hstr : rid = ""
            · simp [hstr]
            · simp [if_neg hstr, hfind]
  have hstep : ∀ m, insStep references footnotes referencedSpans m t = m := by
    intro m
    simp [insStep, hnone]
  refine ⟨hnone, hstep, ?_⟩
  intro span pre post htags
  unfold createInsertionsMap
  rw [htags]
  simp only [List.foldl_append, List.foldl_cons, hstep]

/-- Fixture: an unresolvable reference tag (no metadata id at all). -/
def urTag : InnerTag := .mk .reference ⟨3, 3⟩ [] none

/-- Fixture: a footnote tag whose id resolves to no supplied footnote. -/
def urFoot : InnerTag := .mk .footnote ⟨2, 2⟩ [("id", "fnX")] none

/-- Fixture: a bold tag preceding the unresolvable reference tag. -/
def urBold : InnerTag := .mk .bold ⟨0, 2⟩ [] none

/-- Fixture span holding the unresolvable reference tag. -/
def urSpan : LumiSpan := ⟨"s", "abcd", [urBold, urTag]⟩

/-- Fixture reference list without `refX`. -/
def urRef : LumiReference := ⟨"ref1", "r1"⟩

/-- Witness for C10: the unresolvable reference tag produces no insertion,
leaves any map unchanged, and removing it from the span leaves the built
insertions map identical. -/
theorem unresolved_tag_contributes_nothing_witness :
    insOf (some [urRef]) none none urTag = none ∧
    insStep (some [urRef]) none none
      [((3 : Int), [Insertion.footnoteIns 1 "f"])] urTag =
      [((3 : Int), [Insertion.footnoteIns 1 "f"])] ∧
    createInsertionsMap urSpan (some [urRef]) none none =
      createInsertionsMap ⟨"s", "abcd", [urBold]⟩ (some [urRef]) none none ∧
    insOf none (some [⟨"fn1"⟩]) none urFoot = none := by
  have hmain := unresolved_tag_contributes_nothing (some [urRef]) none none
    urTag (Or.inl ⟨rfl, Or.inr (Or.inl rfl)⟩)
  have hfoot := unresolved_tag_contributes_nothing none (some [⟨"fn1"⟩]) none
    urFoot (Or.inr (Or.inl ⟨rfl, Or.inr (Or.inr (Or.inr (by
      intro fid hid ns hns note hnote
      injection hid with h1
      subst h1
      injection hns with h2
      subst h2
      have : note = ⟨"fn1"⟩ := List.mem_singleton.mp hnote
      subst this
      decide)))⟩))
  exact ⟨hmain.1, hmain.2.1 _, hmain.2.2 urSpan [urBold] [] rfl, hfoot.1⟩

/-- Whether a counter carries a given tag kind. -/
def hasKind (c : FormattingCounter) (K : InnerTagName) : Bool :=
  (counterGet c (CounterKey.tagKey K)).isSome

/-- The math kind the render loop checks on the next character: basic math is
preferred when the current character carries it. -/
def mathTagToCheck (fc : FormattingCounter) : InnerTagName :=
  if hasBasicMath fc then InnerTagName.math else InnerTagName.mathDisplay

/-- The other math kind. -/
def otherKind : InnerTagName → InnerTagName
  | .math => .mathDisplay
  | _ => .math

theorem partsLoop_cons_nonmath (m : InsMap) (c : Char)
    (fc : FormattingCounter) (rest : List (Char × FormattingCounter))
    (i : Nat) (eqText : String)
    (h : ¬(hasBasicMath fc ∨ hasDisplayMath fc)) :
    partsLoop m ((c, fc) :: rest) i eqText =
      insUnitsAt m i ++
        RenderUnit.charUnit i c fc :: partsLoop m rest (i + 1) eqText := by
  rw [partsLoop.eq_def]
  dsimp only
  rw [if_neg h]

theorem partsLoop_cons_math_cont (m : InsMap) (c c2 : Char)
    (fc fc2 : FormattingCounter) (rest2 : List (Char × FormattingCounter))
    (i : Nat) (eqText : String)
    (h : hasBasicMath fc ∨ hasDisplayMath fc)
    (hcont : hasKind fc2 (mathTagToCheck fc) = true) :
    partsLoop m ((c, fc) :: (c2, fc2) :: rest2) i eqText =
      insUnitsAt m i ++
        partsLoop m ((c2, fc2) :: rest2) (i + 1) (eqText.push c) := by
  rw [partsLoop.eq_def]
  dsimp only
  rw [if_pos h]
  rw [show (counterGet fc2
      (CounterKey.tagKey
        (if hasBasicMath fc = true then InnerTagName.math
         else InnerTagName.mathDisplay))).isSome = true from by
    by_cases hb : hasBasicMath fc <;>
      simpa [hasKind, mathTagToCheck, hb] using hcont]
  rw [if_pos rfl]

theorem partsLoop_cons_math_stop (m : InsMap) (c c2 : Char)
    (fc fc2 : FormattingCounter) (rest2 : List (Char × FormattingCounter))
    (i : Nat) (eqText : String)
    (h : hasBasicMath fc ∨ hasDisplayMath fc)
    (hstop : hasKind fc2 (mathTagToCheck fc) = false) :
    partsLoop m ((c, fc) :: (c2, fc2) :: rest2) i eqText =
      insUnitsAt m i ++
        RenderUnit.equationUnit i (eqText.push c) (hasDisplayMath fc) ::
          partsLoop m ((c2, fc2) :: rest2) (i + 1) "" := by
  rw [partsLoop.eq_def]
  dsimp only
  rw [if_pos h]
  rw [show (counterGet fc2
      (CounterKey.tagKey
        (if hasBasicMath fc = true then InnerTagName.math
         else InnerTagName.mathDisplay))).isSome = false from by
    by_cases hb : hasBasicMath fc <;>
      simpa [hasKind, mathTagToCheck, hb] using hstop]
  rw [if_neg (by simp)]

theorem partsLoop_cons_math_last (m : InsMap) (c : Char)
    (fc : FormattingCounter) (i : Nat) (eqText : String)
    (h : hasBasicMath fc ∨ hasDisplayMath fc) :
    partsLoop m [(c, fc)] i eqText =
      insUnitsAt m i ++
        [RenderUnit.equationUnit i (eqText.push c) (hasDisplayMath fc)] := by
  rw [partsLoop.eq_def]
  dsimp only
  rw [if_pos h]

theorem partsLoop_idx_ge (m : InsMap) (L : List (Char × FormattingCounter))
    (i : Nat) (eqText : String) (u : RenderUnit)
    (hu : u ∈ partsLoop m L i eqText) : i ≤ u.idx := by
  induction L generalizing i eqText with
  | nil => simp [partsLoop] at hu
  | cons x rest ih =>
    obtain ⟨c, fc⟩ := x
    by_cases h : hasBasicMath fc ∨ hasDisplayMath fc
    · cases rest with
      | nil =>
        rw [partsLoop_cons_math_last m c fc i eqText h] at hu
        rcases List.mem_append.mp hu with hu | hu
        · obtain ⟨ins, _, rfl⟩ := List.mem_map.mp hu
          exact le_refl _
        · rcases List.mem_singleton.mp hu with rfl
          exact le_refl _
      | cons y rest2 =>
        obtain ⟨c2, fc2⟩ := y
        by_cases hcont : hasKind fc2 (mathTagToCheck fc) = true
        · rw [partsLoop_cons_math_cont m c c2 fc fc2 rest2 i eqText h hcont]
            at hu
          rcases List.mem_append.mp hu with hu | hu
          · obtain ⟨ins, _, rfl⟩ := List.mem_map.mp hu
            exact le_refl _
          · exact le_trans (Nat.le_succ i) (ih (i + 1) _ hu)
        · rw [partsLoop_cons_math_stop m c c2 fc fc2 rest2 i eqText h
            (by simpa using hcont)] at hu
          rcases List.mem_append.mp hu with hu | hu
          · obtain ⟨ins, _, rfl⟩ := List.mem_map.mp hu
            exact le_refl _
          · rcases List.mem_cons.mp hu with rfl | hu
            · exact le_refl _
            · exact le_trans (Nat.le_succ i) (ih (i + 1) _ hu)
    · rw [partsLoop_cons_nonmath m c fc rest i eqText h] at hu
      rcases List.mem_append.mp hu with hu | hu
      · obtain ⟨ins, _, rfl⟩ := List.mem_map.mp hu
        exact le_refl _
      · rcases List.mem_cons.mp hu with rfl | hu
        · exact le_refl _
        · exact le_trans (Nat.le_succ i) (ih (i + 1) _ hu)

theorem push_ne_empty (s : String) (c : Char) : s.push c ≠ "" := by
  cases s with
  | mk data =>
    intro h
    have hd := congrArg String.data h
    simp [String.push] at hd

theorem partsLoop_peel (m : InsMap) (L : List (Char × FormattingCounter)) :
    ∀ k, k ≤ L.length →
    ∃ pre e,
      partsLoop m L 0 "" = pre ++ partsLoop m (L.drop k) k e ∧
      (∀ u ∈ pre, u.idx < k) ∧
      (e ≠ "" →
        0 < k ∧
        ∃ K, (K = InnerTagName.math ∨ K = InnerTagName.mathDisplay) ∧
          (∃ x, L[k - 1]? = some x ∧ hasKind x.2 K = true) ∧
          (∃ y, L[k]? = some y ∧ hasKind y.2 K = true)) := by
  intro k
  induction k with
  | zero =>
    intro _
    exact ⟨[], "", by simp, by simp, fun h => absurd rfl h⟩
  | succ k ih =>
    intro hk1
    obtain ⟨pre, e, heq, hpre, hinv⟩ := ih (by omega)
    have hklen : k < L.length := by omega
    obtain ⟨c, fc⟩ : Char × FormattingCounter := L[k]
    have hdrop : L.drop k = L[k] :: L.drop (k + 1) :=
      List.drop_eq_getElem_cons hklen
    by_cases hmath : hasBasicMath (L[k]).2 ∨ hasDisplayMath (L[k]).2
    · cases hd1 : L.drop (k + 1) with
      | nil =>
        have hlen1 : k + 1 = L.length := by
          have := List.length_drop (k + 1) L
          rw [hd1] at this
          simp at this
          omega
        refine ⟨pre ++ (insUnitsAt m k ++
          [RenderUnit.equationUnit k (e.push (L[k]).1) (hasDisplayMath (L[k]).2)]),
          "", ?_, ?_, fun h => absurd rfl h⟩
        · rw [heq, hdrop, hd1]
          rw [show (L[k] : Char × FormattingCounter) = ((L[k]).1, (L[k]).2)
            from rfl]
          rw [partsLoop_cons_math_last m _ _ k e hmath]
          simp [partsLoop]
        · intro u hu
          rcases List.mem_append.mp hu with hu | hu
          · exact lt_trans (hpre u hu) (Nat.lt_succ_self k)
          · rcases List.mem_append.mp hu with hu | hu
            · obtain ⟨ins, _, rfl⟩ := List.mem_map.mp hu
              exact Nat.lt_succ_self k
            · rcases List.mem_singleton.mp hu with rfl
              exact Nat.lt_succ_self k
      | cons y rest2 =>
        have hy : L[k + 1]? = some y := by
          have := List.getElem?_drop L (k + 1) 0
          rw [hd1] at this
          simpa using this.symm
        by_cases hcont : hasKind y.2 (mathTagToCheck (L[k]).2) = true
        · refine ⟨pre ++ insUnitsAt m k, e.push (L[k]).1, ?_, ?_, ?_⟩
          · rw [heq, hdrop, hd1]
            rw [show (L[k] : Char × FormattingCounter) = ((L[k]).1, (L[k]).2)
              from rfl]
            rw [show (y : Char × FormattingCounter) = (y.1, y.2) from rfl]
            rw [partsLoop_cons_math_cont m _ _ _ _ rest2 k e hmath
              (by simpa using hcont)]
            rw [← hd1, List.append_assoc]
          · intro u hu
            rcases List.mem_append.mp hu with hu | hu
            · exact lt_trans (hpre u hu) (Nat.lt_succ_self k)
            · obtain ⟨ins, _, rfl⟩ := List.mem_map.mp hu
              exact Nat.lt_succ_self k
          · intro _
            refine ⟨Nat.succ_pos k, mathTagToCheck (L[k]).2, ?_, ?_, ?_⟩
            · by_cases hb : hasBasicMath (L[k]).2 <;>
                simp [mathTagToCheck, hb]
            · refine ⟨L[k], ?_, ?_⟩
              · simp [List.getElem?_eq_getElem hklen]
              · by_cases hb : hasBasicMath (L[k]).2
                · simp only [mathTagToCheck, if_pos hb]
                  simpa [hasKind, hasBasicMath] using hb
                · have hdm : hasDisplayMath (L[k]).2 := by
                    rcases hmath with hm | hm
                    · exact absurd hm hb
                    · exact hm
                  simp only [mathTagToCheck, if_neg hb]
                  simpa [hasKind, hasDisplayMath] using hdm
            · exact ⟨y, hy, hcont⟩
        · refine ⟨pre ++ (insUnitsAt m k ++
            [RenderUnit.equationUnit k (e.push (L[k]).1)
              (hasDisplayMath (L[k]).2)]), "", ?_, ?_, fun h => absurd rfl h⟩
          · rw [heq, hdrop, hd1]
            rw [show (L[k] : Char × FormattingCounter) = ((L[k]).1, (L[k]).2)
              from rfl]
            rw [show (y : Char × FormattingCounter) = (y.1, y.2) from rfl]
            rw [partsLoop_cons_math_stop m _ _ _ _ rest2 k e hmath
              (by simpa using hcont)]
            rw [← hd1]
            simp
          · intro u hu
            rcases List.mem_append.mp hu with hu | hu
            · exact lt_trans (hpre u hu) (Nat.lt_succ_self k)
            · rcases List.mem_append.mp hu with hu | hu
              · obtain ⟨ins, _, rfl⟩ := List.mem_map.mp hu
                exact Nat.lt_succ_self k
              · rcases List.mem_singleton.mp hu with rfl
                exact Nat.lt_succ_self k
    · have he : e = "" := by
        by_contra hne
        obtain ⟨-, K, hK, -, ⟨y, hy, hky⟩⟩ := hinv hne
        have hyx : y = L[k] := by
          rw [List.getElem?_eq_getElem hklen] at hy
          injection hy with hy
          exact hy.symm
        subst hyx
        rcases hK with rfl | rfl
        · exact hmath (Or.inl (by simpa [hasBasicMath] using hky))
        · exact hmath (Or.inr (by simpa [hasDisplayMath] using hky))
      subst he
      refine ⟨pre ++ (insUnitsAt m k ++
        [RenderUnit.charUnit k (L[k]).1 (L[k]).2]), "",
        ?_, ?_, fun h => absurd rfl h⟩
      · rw [heq, hdrop]
        rw [show (L[k] : Char × FormattingCounter) = ((L[k]).1, (L[k]).2)
          from rfl]
        rw [partsLoop_cons_nonmath m _ _ _ k "" hmath]
        simp
      · intro u hu
        rcases List.mem_append.mp hu with hu | hu
        · exact lt_trans (hpre u hu) (Nat.lt_succ_self k)
        · rcases List.mem_append.mp hu with hu | hu
          · obtain ⟨ins, _, rfl⟩ := List.mem_map.mp hu
            exact Nat.lt_succ_self k
          · rcases List.mem_singleton.mp hu with rfl
            exact Nat.lt_succ_self k

/-- C8: (a) the insertions stored for one offset are exactly those of the
span's resolvable reference/footnote/span-reference tags anchored at that
offset, concatenated in tag processing order; (b) for a character that
carries no math kind, the output decomposes as everything emitted before it,
then the insertions anchored at its index, then immediately its character
unit; (c) for every character index, the insertions anchored there precede
every unit emitted at that or a later loop index (in a math run the single
equation unit is emitted at the run's last index, after the run's anchored
insertions); (d) the insertions anchored exactly at the end-of-text offset
are appended after all loop output. -/
theorem insertion_placement :
    (∀ (span : LumiSpan) (references : Option (List LumiReference))
        (footnotes : Option (List LumiFootnote))
        (referencedSpans : Option (List LumiSpan)) (k : Int),
      insGet (createInsertionsMap span references footnotes referencedSpans)
          k =
        ((span.innerTags.filterMap
            (insOf references footnotes referencedSpans)).filter
          (fun p => p.1 = k)).map Prod.snd) ∧
    (∀ (m : InsMap) (L : List (Char × FormattingCounter)) (i : Nat)
        (c : Char) (fc : FormattingCounter),
      L[i]? = some (c, fc) → ¬(hasBasicMath fc ∨ hasDisplayMath fc) →
      ∃ pre post,
        partsLoop m L 0 "" =
          pre ++ insUnitsAt m i ++ RenderUnit.charUnit i c fc :: post ∧
        ∀ u ∈ pre, u.idx < i) ∧
    (∀ (m : InsMap) (L : List (Char × FormattingCounter)) (i : Nat)
        (x : Char × FormattingCounter),
      L[i]? = some x →
      ∃ pre post,
        partsLoop m L 0 "" = pre ++ insUnitsAt m i ++ post ∧
        (∀ u ∈ pre, u.idx < i) ∧ (∀ u ∈ post, i ≤ u.idx)) ∧
    (∀ (span : LumiSpan) (highlights : List Highlight)
        (references : Option (List LumiReference))
        (footnotes : Option (List LumiFootnote))
        (referencedSpans : Option (List LumiSpan)),
      renderedUnits span highlights references footnotes referencedSpans =
        partsLoop (createInsertionsMap span references footnotes
            referencedSpans)
          (span.text.toList.zip (countersFor span highlights)) 0 "" ++
          insUnitsAt (createInsertionsMap span references footnotes
            referencedSpans) span.text.length) := by
  refine ⟨?_, ?_, ?_, fun span hls refs fns rsp => rfl⟩
  · intro span refs fns rsp k
    unfold createInsertionsMap
    rw [insGet_insStep_fold]
    rfl
  · intro m L i c fc hx hmath
    have hilen : i < L.length := by
      by_contra hge
      rw [List.getElem?_eq_none (by omega)] at hx
      exact Option.noConfusion hx
    obtain ⟨pre, e, heq, hpre, -⟩ := partsLoop_peel m L i (by omega)
    have hdrop : L.drop i = (c, fc) :: L.drop (i + 1) := by
      rw [List.drop_eq_getElem_cons hilen]
      rw [List.getElem?_eq_getElem hilen] at hx
      injection hx with hx
      rw [hx]
    refine ⟨pre, partsLoop m (L.drop (i + 1)) (i + 1) e, ?_, hpre⟩
    rw [heq, hdrop, partsLoop_cons_nonmath m c fc _ i e hmath]
    simp
  · intro m L i x hx
    have hilen : i < L.length := by
      by_contra hge
      rw [List.getElem?_eq_none (by omega)] at hx
      exact Option.noConfusion hx
    obtain ⟨pre, e, heq, hpre, -⟩ := partsLoop_peel m L i (by omega)
    have hxval : L[i] = x := by
      rw [List.getElem?_eq_getElem hilen] at hx
      injection hx with hx
    have hdrop : L.drop i = x :: L.drop (i + 1) := by
      rw [List.drop_eq_getElem_cons hilen, hxval]
    have hpost : ∃ post, partsLoop m (L.drop i) i e = insUnitsAt m i ++ post ∧
        ∀ u ∈ post, i ≤ u.idx := by
      rw [hdrop]
      rw [show (x : Char × FormattingCounter) = (x.1, x.2) from rfl]
      by_cases hmath : hasBasicMath x.2 ∨ hasDisplayMath x.2
      · cases hd1 : L.drop (i + 1) with
        | nil =>
          rw [partsLoop_cons_math_last m _ _ i e hmath]
          refine ⟨[RenderUnit.equationUnit i (e.push x.1)
            (hasDisplayMath x.2)], rfl, ?_⟩
          intro u hu
          rcases List.mem_singleton.mp hu with rfl
          exact le_refl _
        | cons y rest2 =>
          rw [show (y : Char × FormattingCounter) = (y.1, y.2) from rfl]
          by_cases hcont : hasKind y.2 (mathTagToCheck x.2) = true
          · rw [partsLoop_cons_math_cont m _ _ _ _ rest2 i e hmath
              (by simpa using hcont)]
            refine ⟨partsLoop m ((y.1, y.2) :: rest2) (i + 1) (e.push x.1),
              rfl, ?_⟩
            intro u hu
            exact le_trans (Nat.le_succ i) (partsLoop_idx_ge m _ _ _ u hu)
          · rw [partsLoop_cons_math_stop m _ _ _ _ rest2 i e hmath
              (by simpa using hcont)]
            refine ⟨RenderUnit.equationUnit i (e.push x.1)
              (hasDisplayMath x.2) ::
                partsLoop m ((y.1, y.2) :: rest2) (i + 1) "", rfl, ?_⟩
            intro u hu
            rcases List.mem_cons.mp hu with rfl | hu
            · exact le_refl _
            · exact le_trans (Nat.le_succ i) (partsLoop_idx_ge m _ _ _ u hu)
      · rw [partsLoop_cons_nonmath m _ _ _ i e hmath]
        refine ⟨RenderUnit.charUnit i x.1 x.2 ::
          partsLoop m (L.drop (i + 1)) (i + 1) e, rfl, ?_⟩
        intro u hu
        rcases List.mem_cons.mp hu with rfl | hu
        · exact le_refl _
        · exact le_trans (Nat.le_succ i) (partsLoop_idx_ge m _ _ _ u hu)
    obtain ⟨post, hposteq, hpost⟩ := hpost
    refine ⟨pre, post, ?_, hpre, hpost⟩
    rw [heq, hposteq, List.append_assoc]

/-- Fixture span with two footnote tags anchored at offset 1 and one at the
end-of-text offset 2. -/
def fnSpan : LumiSpan :=
  ⟨"s", "Hi",
    [.mk .footnote ⟨1, 1⟩ [("id", "fn1")] none,
     .mk .footnote ⟨1, 1⟩ [("id", "fn2")] none,
     .mk .footnote ⟨2, 2⟩ [("id", "fn1")] none]⟩

/-- Fixture footnote list for the placement witness. -/
def fnList : List LumiFootnote := [⟨"fn1"⟩, ⟨"fn2"⟩]

/-- Witness for C8 on the footnote fixture: the per-offset insertion list in
tag order, the decomposition immediately before character 1's unit, the
general before-all-later-units decomposition, and the end-of-text append. -/
theorem insertion_placement_witness :
    insGet (createInsertionsMap fnSpan none (some fnList) none) 1 =
      ((fnSpan.innerTags.filterMap (insOf none (some fnList) none)).filter
        (fun p => p.1 = 1)).map Prod.snd ∧
    (∃ pre post,
      partsLoop (createInsertionsMap fnSpan none (some fnList) none)
          ("Hi".toList.zip (countersFor fnSpan [])) 0 "" =
        pre ++
          insUnitsAt (createInsertionsMap fnSpan none (some fnList) none) 1 ++
          RenderUnit.charUnit 1 'i' [] :: post ∧
      ∀ u ∈ pre, u.idx < 1) ∧
    (∃ pre post,
      partsLoop (createInsertionsMap fnSpan none (some fnList) none)
          ("Hi".toList.zip (countersFor fnSpan [])) 0 "" =
        pre ++
          insUnitsAt (createInsertionsMap fnSpan none (some fnList) none) 1 ++
          post ∧
      (∀ u ∈ pre, u.idx < 1) ∧ (∀ u ∈ post, 1 ≤ u.idx)) ∧
    renderedUnits fnSpan [] none (some fnList) none =
      partsLoop (createInsertionsMap fnSpan none (some fnList) none)
          (fnSpan.text.toList.zip (countersFor fnSpan [])) 0 "" ++
        insUnitsAt (createInsertionsMap fnSpan none (some fnList) none)
          fnSpan.text.length :=
  ⟨insertion_placement.1 fnSpan none (some fnList) none 1,
    insertion_placement.2.1 (createInsertionsMap fnSpan none (some fnList)
        none)
      ("Hi".toList.zip (countersFor fnSpan [])) 1 'i' [] (by decide)
      (by decide),
    insertion_placement.2.2.1 (createInsertionsMap fnSpan none (some fnList)
        none)
      ("Hi".toList.zip (countersFor fnSpan [])) 1 ('i', []) (by decide),
    insertion_placement.2.2.2 fnSpan [] none (some fnList) none⟩

/-! ## Claim C5: math-run coalescing -/

/-- The text of characters `a ≤ idx < b` of the zipped character/counter
list. -/
def textOf (L : List (Char × FormattingCounter)) (a b : Nat) : String :=
  String.mk (((L.map Prod.fst).drop a).take (b - a))

/-- The insertion units anchored at the indices `s ≤ idx < s + len`, in index
order. -/
def insSeg (m : InsMap) (s len : Nat) : List RenderUnit :=
  (List.range' s len).flatMap (insUnitsAt m)

theorem textOf_self (L : List (Char × FormattingCounter)) (a : Nat) :
    textOf L a a = "" := by
  unfold textOf
  simp

theorem textOf_push (L : List (Char × FormattingCounter)) (a j : Nat)
    (x : Char × FormattingCounter) (ha : a ≤ j) (hx : L[j]? = some x) :
    (textOf L a j).push x.1 = textOf L a (j + 1) := by
  have hj : j < L.length := by
    by_contra hge
    rw [List.getElem?_eq_none (by omega)] at hx
    exact Option.noConfusion hx
  unfold textOf
  rw [show (j + 1 - a) = (j - a) + 1 from by omega]
  rw [List.take_succ]
  have hget : ((L.map Prod.fst).drop a)[j - a]? = some x.1 := by
    rw [List.getElem?_drop]
    rw [show a + (j - a) = j from by omega]
    rw [List.getElem?_map, hx]
    rfl
  rw [hget]
  rfl

theorem insSeg_succ (m : InsMap) (s n : Nat) :
    insSeg m s (n + 1) = insUnitsAt m s ++ insSeg m (s + 1) n := by
  unfold insSeg
  rw [show List.range' s (n + 1) = s :: List.range' (s + 1) n from rfl]
  simp

theorem insSeg_mem (m : InsMap) (s len : Nat) (u : RenderUnit)
    (hu : u ∈ insSeg m s len) :
    ∃ j ins, u = RenderUnit.insUnit j ins ∧ s ≤ j ∧ j < s + len := by
  unfold insSeg at hu
  obtain ⟨j, hj, hu⟩ := List.mem_flatMap.mp hu
  obtain ⟨ins, -, rfl⟩ := List.mem_map.mp hu
  have := List.mem_range'_1.mp hj
  exact ⟨j, ins, rfl, this.1, this.2⟩

theorem partsLoop_run_segment (m : InsMap)
    (L : List (Char × FormattingCounter)) (K : InnerTagName) (s e : Nat)
    (hK : K = InnerTagName.math ∨ K = InnerTagName.mathDisplay)
    (hel : e ≤ L.length)
    (hrun : ∀ j x, s ≤ j → j < e → L[j]? = some x →
      hasKind x.2 K = true ∧ hasKind x.2 (otherKind K) = false)
    (hstop : e = L.length ∨ ∀ y, L[e]? = some y → hasKind y.2 K = false) :
    ∀ n j, s ≤ j → j < e → e - j = n + 1 →
      partsLoop m (L.drop j) j (textOf L s j) =
        insSeg m j (e - j) ++
          RenderUnit.equationUnit (e - 1) (textOf L s e)
            (decide (K = InnerTagName.mathDisplay)) ::
            partsLoop m (L.drop e) e "" := by
  intro n
  induction n with
  | zero =>
    intro j hsj hje hn
    have hje1 : j + 1 = e := by omega
    have hjlen : j < L.length := by omega
    have hx : L[j]? = some (L[j]) := List.getElem?_eq_getElem hjlen
    obtain ⟨hxK, hxO⟩ := hrun j (L[j]) hsj hje hx
    have hmath : hasBasicMath (L[j]).2 ∨ hasDisplayMath (L[j]).2 := by
      rcases hK with rfl | rfl
      · exact Or.inl (by simpa [hasBasicMath, hasKind] using hxK)
      · exact Or.inr (by simpa [hasDisplayMath, hasKind] using hxK)
    have hcheck : mathTagToCheck (L[j]).2 = K := by
      rcases hK with rfl | rfl
      · simp [mathTagToCheck,
          show hasBasicMath (L[j]).2 = true from by
            simpa [hasBasicMath, hasKind] using hxK]
      · simp [mathTagToCheck,
          show hasBasicMath (L[j]).2 = false from by
            simpa [hasBasicMath, hasKind, otherKind] using hxO]
    have hdisp : hasDisplayMath (L[j]).2 = decide (K = InnerTagName.mathDisplay) := by
      rcases hK with rfl | rfl
      · simpa [hasDisplayMath, hasKind, otherKind] using hxO
      · simpa [hasDisplayMath, hasKind] using hxK
    have hdropj : L.drop j = L[j] :: L.drop (j + 1) :=
      List.drop_eq_getElem_cons hjlen
    have hseg1 : insSeg m j (e - j) = insUnitsAt m j ++ insSeg m (j + 1) 0 := by
      rw [show e - j = 0 + 1 from by omega]
      exact insSeg_succ m j 0
    rcases Nat.lt_or_ge e L.length with helt | hege
    · have hy : L[e]? = some (L[e]) := List.getElem?_eq_getElem helt
      have hyK : hasKind (L[e]).2 K = false := by
        rcases hstop with hst | hst
        · omega
        · exact hst (L[e]) hy
      have hdrope : L.drop e = L[e] :: L.drop (e + 1) :=
        List.drop_eq_getElem_cons helt
      have hstop' : hasKind (L[e]).2 (mathTagToCheck (L[j]).2) = false := by
        rw [hcheck]
        exact hyK
      have hdrop1 : L.drop (j + 1) = L[e] :: L.drop (e + 1) := by
        rw [hje1]
        exact hdrope
      rw [hdropj, hdrop1]
      rw [show (L[j] : Char × FormattingCounter) = ((L[j]).1, (L[j]).2)
        from rfl]
      rw [show (L[e] : Char × FormattingCounter) = ((L[e]).1, (L[e]).2)
        from rfl]
      rw [partsLoop_cons_math_stop m _ _ _ _ _ j _ hmath
        (by simpa using hstop')]
      rw [textOf_push L s j (L[j]) hsj hx]
      rw [hseg1, hdisp]
      rw [show e - 1 = j from by omega]
      rw [hje1]
      rw [hdrope]
      rw [show (L[e] : Char × FormattingCounter) = ((L[e]).1, (L[e]).2)
        from rfl]
      simp [insSeg]
    · have hlen : e = L.length := by omega
      have hdrope1 : L.drop (j + 1) = [] := by
        rw [hje1, hlen]
        simp
      rw [hdropj]
      rw [show (L[j] : Char × FormattingCounter) = ((L[j]).1, (L[j]).2)
        from rfl]
      rw [hdrope1]
      rw [partsLoop_cons_math_last m _ _ j _ hmath]
      rw [textOf_push L s j (L[j]) hsj hx]
      rw [hseg1, hdisp]
      rw [show e - 1 = j from by omega]
      rw [hje1]
      have hde : L.drop e = [] := by
        rw [hlen]
        simp
      rw [hde]
      simp [insSeg, partsLoop]
  | succ n ih =>
    intro j hsj hje hn
    have hjlen : j < L.length := by omega
    have hj1e : j + 1 < e := by omega
    have hj1len : j + 1 < L.length := by omega
    have hx : L[j]? = some (L[j]) := List.getElem?_eq_getElem hjlen
    have hy : L[j + 1]? = some (L[j + 1]) := List.getElem?_eq_getElem hj1len
    obtain ⟨hxK, hxO⟩ := hrun j (L[j]) hsj hje hx
    obtain ⟨hyK, -⟩ := hrun (j + 1) (L[j + 1]) (by omega) hj1e hy
    have hmath : hasBasicMath (L[j]).2 ∨ hasDisplayMath (L[j]).2 := by
      rcases hK with rfl | rfl
      · exact Or.inl (by simpa [hasBasicMath, hasKind] using hxK)
      · exact Or.inr (by simpa [hasDisplayMath, hasKind] using hxK)
    have hcheck : mathTagToCheck (L[j]).2 = K := by
      rcases hK with rfl | rfl
      · simp [mathTagToCheck,
          show hasBasicMath (L[j]).2 = true from by
            simpa [hasBasicMath, hasKind] using hxK]
      · simp [mathTagToCheck,
          show hasBasicMath (L[j]).2 = false from by
            simpa [hasBasicMath, hasKind, otherKind] using hxO]
    have hdropj : L.drop j = L[j] :: L.drop (j + 1) :=
      List.drop_eq_getElem_cons hjlen
    have hdropj1 : L.drop (j + 1) = L[j + 1] :: L.drop (j + 2) :=
      List.drop_eq_getElem_cons hj1len
    rw [hdropj, hdropj1]
    rw [show (L[j] : Char × FormattingCounter) = ((L[j]).1, (L[j]).2)
      from rfl]
    rw [show (L[j + 1] : Char × FormattingCounter) =
      ((L[j + 1]).1, (L[j + 1]).2) from rfl]
    rw [partsLoop_cons_math_cont m _ _ _ _ _ j _ hmath
      (by rw [hcheck]; simpa using hyK)]
    rw [textOf_push L s j (L[j]) hsj hx]
    have hrec := ih (j + 1) (by omega) hj1e (by omega)
    rw [hdropj1] at hrec
    rw [show (L[j + 1] : Char × FormattingCounter) =
      ((L[j + 1]).1, (L[j + 1]).2) from rfl] at hrec
    rw [hrec]
    rw [show e - j = (e - (j + 1)) + 1 from by omega, insSeg_succ]
    simp

/-- C5 (amended): for every maximal contiguous run `[s, e)` of characters all
carrying math kind `K` and — as the counterexample forces — none carrying
the other math kind, the render loop emits exactly one equation unit for the
run: it appears at the run's last index `e - 1` (the first index whose
successor no longer carries `K`), contains exactly the run's text, and no
other equation unit and no per-character unit is emitted at any index of the
run; only insertion units anchored inside the run may precede it after the
pre-run output. -/
theorem math_run_coalesced :
    ∀ (m : InsMap) (L : List (Char × FormattingCounter)) (K : InnerTagName)
      (s e : Nat),
      (K = InnerTagName.math ∨ K = InnerTagName.mathDisplay) →
      s < e → e ≤ L.length →
      (∀ j x, s ≤ j → j < e → L[j]? = some x →
        hasKind x.2 K = true ∧ hasKind x.2 (otherKind K) = false) →
      (s = 0 ∨ ∀ y, L[s - 1]? = some y → hasKind y.2 K = false) →
      (e = L.length ∨ ∀ y, L[e]? = some y → hasKind y.2 K = false) →
      ∃ pre post,
        partsLoop m L 0 "" =
          pre ++
            RenderUnit.equationUnit (e - 1) (textOf L s e)
              (decide (K = InnerTagName.mathDisplay)) :: post ∧
        (∀ u ∈ pre, u.idx < s ∨
          ∃ j ins, u = RenderUnit.insUnit j ins ∧ s ≤ j ∧ j < e) ∧
        (∀ u ∈ post, e ≤ u.idx) ∧
        (∀ u, (u ∈ pre ∨ u ∈ post) → ∀ j t d,
          u = RenderUnit.equationUnit j t d → j < s ∨ e ≤ j) ∧
        (∀ u, u ∈ partsLoop m L 0 "" → ∀ j c fc,
          u = RenderUnit.charUnit j c fc → j < s ∨ e ≤ j) := by
  intro m L K s e hK hse hel hrun hstart hstop
  obtain ⟨pre0, e0, heq, hpre0, hinv⟩ := partsLoop_peel m L s (by omega)
  have hslen : s < L.length := by omega
  have hxs : L[s]? = some (L[s]) := List.getElem?_eq_getElem hslen
  obtain ⟨hsK, hsO⟩ := hrun s (L[s]) (le_refl s) hse hxs
  have he0 : e0 = "" := by
    by_contra hne
    obtain ⟨hpos, K', hK', ⟨x1, hx1, hk1⟩, ⟨y1, hy1, hk2⟩⟩ := hinv hne
    have hy1v : y1 = L[s] := by
      rw [hxs] at hy1
      injection hy1 with hy1
      exact hy1.symm
    subst hy1v
    have hKK : K' = K := by
      rcases hK with rfl | rfl <;> rcases hK' with rfl | rfl
      · rfl
      · exact absurd hk2 (by simpa [otherKind] using hsO)
      · exact absurd hk2 (by simpa [otherKind] using hsO)
      · rfl
    subst hKK
    rcases hstart with rfl | hst
    · omega
    · exact absurd hk1 (by simp [hst x1 hx1])
  subst he0
  have hseg := partsLoop_run_segment m L K s e hK hel hrun hstop
    (e - s - 1) s (le_refl s) hse (by omega)
  rw [textOf_self] at hseg
  rw [hseg] at heq
  refine ⟨pre0 ++ insSeg m s (e - s), partsLoop m (L.drop e) e "",
    ?_, ?_, ?_, ?_, ?_⟩
  · rw [heq]
    simp [List.append_assoc]
  · intro u hu
    rcases List.mem_append.mp hu with hu | hu
    · exact Or.inl (hpre0 u hu)
    · obtain ⟨j, ins, rfl, hj1, hj2⟩ := insSeg_mem m s (e - s) u hu
      exact Or.inr ⟨j, ins, rfl, hj1, by omega⟩
  · intro u hu
    exact partsLoop_idx_ge m _ _ _ u hu
  · intro u hu j t d hu'
    subst hu'
    rcases hu with hu | hu
    · rcases List.mem_append.mp hu with hu | hu
      · exact Or.inl (hpre0 _ hu)
      · obtain ⟨j', ins, heq', -, -⟩ := insSeg_mem m s (e - s) _ hu
        exact absurd heq' (by intro hcon; exact RenderUnit.noConfusion hcon)
    · exact Or.inr (partsLoop_idx_ge m _ _ _ _ hu)
  · intro u hu j c fc hu'
    subst hu'
    rw [heq] at hu
    rcases List.mem_append.mp hu with hu | hu
    · exact Or.inl (hpre0 _ hu)
    · rcases List.mem_append.mp hu with hu | hu
      · obtain ⟨j', ins, heq', -, -⟩ := insSeg_mem m s (e - s) _ hu
        exact absurd heq' (by intro hcon; exact RenderUnit.noConfusion hcon)
      · rcases List.mem_cons.mp hu with heq' | hu
        · exact absurd heq' (by intro hcon; exact RenderUnit.noConfusion hcon)
        · exact Or.inr (partsLoop_idx_ge m _ _ _ _ hu)

/-- Fixture span whose characters 0 and 1 both carry the display-math kind
while character 0 also carries basic math. -/
def abSpan : LumiSpan :=
  ⟨"s1", "ab", [.mk .math ⟨0, 1⟩ [] none, .mk .mathDisplay ⟨0, 2⟩ [] none]⟩

/-- C5 counterexample: the indices 0 and 1 form a maximal contiguous run both
carrying the display-math kind (the run spans the whole 2-character text),
yet the loop emits two equation units, `"a"` and `"b"` — not one equation
unit containing the run's characters `"ab"` — because index 0 also carries
basic math, which takes preference in the run-boundary check. -/
theorem math_run_coalesced_counterexample :
    ((countersFor abSpan [])[0]?).map
        (fun c => hasKind c InnerTagName.mathDisplay) = some true ∧
    ((countersFor abSpan [])[1]?).map
        (fun c => hasKind c InnerTagName.mathDisplay) = some true ∧
    partsLoop [] ("ab".toList.zip (countersFor abSpan [])) 0 "" =
      [RenderUnit.equationUnit 0 "a" true,
       RenderUnit.equationUnit 1 "b" true] ∧
    textOf ("ab".toList.zip (countersFor abSpan [])) 0 2 = "ab" ∧
    ("a" : String) ≠ "ab" ∧ ("b" : String) ≠ "ab" := by
  decide

/-- Fixture span with a clean basic-math run over indices 1..3. -/
def wmSpan : LumiSpan := ⟨"s", "xE=m", [.mk .math ⟨1, 4⟩ [] none]⟩

/-- Witness for the amended C5 on a pure basic-math run `[1, 4)` of the
4-character fixture: a single equation unit at index 3 containing the run's
text. -/
theorem math_run_coalesced_witness :
    ∃ pre post,
      partsLoop [] ("xE=m".toList.zip (countersFor wmSpan [])) 0 "" =
        pre ++
          RenderUnit.equationUnit 3
            (textOf ("xE=m".toList.zip (countersFor wmSpan [])) 1 4)
            (decide (InnerTagName.math = InnerTagName.mathDisplay)) :: post ∧
      (∀ u ∈ pre, u.idx < 1 ∨
        ∃ j ins, u = RenderUnit.insUnit j ins ∧ 1 ≤ j ∧ j < 4) ∧
      (∀ u ∈ post, 4 ≤ u.idx) ∧
      (∀ u, (u ∈ pre ∨ u ∈ post) → ∀ j t d,
        u = RenderUnit.equationUnit j t d → j < 1 ∨ 4 ≤ j) ∧
      (∀ u, u ∈ partsLoop [] ("xE=m".toList.zip (countersFor wmSpan [])) 0 ""
        → ∀ j c fc, u = RenderUnit.charUnit j c fc → j < 1 ∨ 4 ≤ j) := by
  have h := math_run_coalesced []
    ("xE=m".toList.zip (countersFor wmSpan [])) InnerTagName.math 1 4
    (Or.inl rfl) (by decide) (by decide)
    (by
      intro j x h1 h2 hx
      interval_cases j
      · rw [show ("xE=m".toList.zip (countersFor wmSpan []))[1]? =
            some ('E', [(CounterKey.tagKey InnerTagName.math, [])]) from by
          decide] at hx
        cases hx
        decide
      · rw [show ("xE=m".toList.zip (countersFor wmSpan []))[2]? =
            some ('=', [(CounterKey.tagKey InnerTagName.math, [])]) from by
          decide] at hx
        cases hx
        decide
      · rw [show ("xE=m".toList.zip (countersFor wmSpan []))[3]? =
            some ('m', [(CounterKey.tagKey InnerTagName.math, [])]) from by
          decide] at hx
        cases hx
        decide)
    (Or.inr (by
      intro y hy
      rw [show ("xE=m".toList.zip (countersFor wmSpan []))[1 - 1]? =
          some ('x', []) from by decide] at hy
      cases hy
      decide))
    (Or.inl (by decide))
  simpa using h

/-! ## Claims C6 and C2: the selection resolver -/

theorem getSelectionInfo_some_inv (sel : Sel) (info : SelectionInfo)
    (h : getSelectionInfo sel = some info) :
    ∃ su eu, sel.nodes[sel.first.node]? = some (SibNode.lumi su) ∧
      sel.nodes[sel.last.node]? = some (SibNode.lumi eu) ∧
      su.uid ≠ "" ∧ eu.uid ≠ "" ∧
      info.highlightSelection =
        pairsFor sel su eu
          (collectedUnits sel.nodes sel.first.node sel.last.node su) := by
  unfold getSelectionInfo at h
  by_cases h1 : (jsTrim sel.text).length = 0
  · rw [if_pos h1] at h
    exact Option.noConfusion h
  rw [if_neg h1] at h
  by_cases h2 : sel.hasRange
  · rw [if_neg (by simpa using h2)] at h
    cases hsu : sel.nodes[sel.first.node]? with
    | none => rw [hsu] at h; exact Option.noConfusion h
    | some nd1 =>
      cases nd1 with
      | other =>
        rw [hsu] at h
        exact Option.noConfusion h
      | lumi su =>
        cases heu : sel.nodes[sel.last.node]? with
        | none => rw [hsu, heu] at h; exact Option.noConfusion h
        | some nd2 =>
          cases nd2 with
          | other =>
            rw [hsu, heu] at h
            exact Option.noConfusion h
          | lumi eu =>
            rw [hsu, heu] at h
            dsimp only at h
            by_cases hid : su.uid = "" ∨ eu.uid = ""
            · rw [if_pos hid] at h
              exact Option.noConfusion h
            · rw [if_neg hid] at h
              push_neg at hid
              injection h with h
              refine ⟨su, eu, rfl, rfl, hid.1, hid.2, ?_⟩
              rw [← h]
  · rw [if_pos h2] at h
    exact Option.noConfusion h

theorem char_marker_count (l : List RElem)
    (h : ∀ e ∈ l, e.isCharElem ∨ e.isInlineMarker) :
    ((l.filter (fun e => e.isCharElem)).length : Int) +
      ((l.filter (fun e => e.isInlineMarker)).length : Int) =
      (l.length : Int) := by
  induction l with
  | nil => simp
  | cons e rest ih =>
    have hrest := ih (fun x hx => h x (List.mem_cons_of_mem e hx))
    have he := h e (List.mem_cons_self e rest)
    cases e with
    | charElem c =>
      have hc : List.filter (fun e => e.isCharElem)
          (RElem.charElem c :: rest) =
          RElem.charElem c :: List.filter (fun e => e.isCharElem) rest := by
        simp [List.filter_cons, RElem.isCharElem]
      have hm : List.filter (fun e => e.isInlineMarker)
          (RElem.charElem c :: rest) =
          List.filter (fun e => e.isInlineMarker) rest := by
        simp [List.filter_cons, RElem.isInlineMarker]
      rw [hc, hm]
      simp only [List.length_cons]
      push_cast
      omega
    | citationElem t =>
      have hc : List.filter (fun e => e.isCharElem)
          (RElem.citationElem t :: rest) =
          List.filter (fun e => e.isCharElem) rest := by
        simp [List.filter_cons, RElem.isCharElem]
      have hm : List.filter (fun e => e.isInlineMarker)
          (RElem.citationElem t :: rest) =
          RElem.citationElem t ::
            List.filter (fun e => e.isInlineMarker) rest := by
        simp [List.filter_cons, RElem.isInlineMarker]
      rw [hc, hm]
      simp only [List.length_cons]
      push_cast
      omega
    | footnoteElem t =>
      have hc : List.filter (fun e => e.isCharElem)
          (RElem.footnoteElem t :: rest) =
          List.filter (fun e => e.isCharElem) rest := by
        simp [List.filter_cons, RElem.isCharElem]
      have hm : List.filter (fun e => e.isInlineMarker)
          (RElem.footnoteElem t :: rest) =
          RElem.footnoteElem t ::
            List.filter (fun e => e.isInlineMarker) rest := by
        simp [List.filter_cons, RElem.isInlineMarker]
      rw [hc, hm]
      simp only [List.length_cons]
      push_cast
      omega
    | plainElem t =>
      simp [RElem.isCharElem, RElem.isInlineMarker] at he

/-- C6: a selection boundary's computed character offset is the index of its
character container among the unit's children minus the number of
citation/footnote marker elements preceding it; when the children are one
element per character plus interleaved markers, that equals the number of
character containers preceding the boundary — the offset in text space — and
it is exactly the start offset the resolver reports for the first collected
unit. -/
theorem offset_in_text_space :
    (∀ (children : List RElem) (bi : Nat),
      getOffsetInLumiSpan children bi =
        (bi : Int) -
          (((children.take bi).filter (fun e => e.isInlineMarker)).length :
            Int)) ∧
    (∀ (children : List RElem) (bi : Nat), bi ≤ children.length →
      (∀ e ∈ children, e.isCharElem ∨ e.isInlineMarker) →
      getOffsetInLumiSpan children bi =
        (((children.take bi).filter (fun e => e.isCharElem)).length : Int)) ∧
    (∀ (sel : Sel) (su : LumiUnit) (info : SelectionInfo),
      getSelectionInfo sel = some info →
      sel.nodes[sel.first.node]? = some (SibNode.lumi su) →
      ∃ eo rest,
        info.highlightSelection =
          ⟨su.uid, ⟨getOffsetInLumiSpan su.children sel.first.child, eo⟩⟩ ::
            rest) := by
  refine ⟨fun children bi => rfl, ?_, ?_⟩
  · intro children bi hbi hall
    have hsub := char_marker_count (children.take bi)
      (fun e he => hall e (List.take_subset bi children he))
    have hlen : (children.take bi).length = bi := by
      rw [List.length_take]
      omega
    rw [hlen] at hsub
    dsimp only [getOffsetInLumiSpan]
    omega
  · intro sel su info h hsu
    obtain ⟨su', eu, hsu', heu, hne, hne2, hsel⟩ :=
      getSelectionInfo_some_inv sel info h
    rw [hsu] at hsu'
    injection hsu' with hsu'
    injection hsu' with hsu'
    subst hsu'
    obtain ⟨tail, htail⟩ : ∃ tail,
        collectedUnits sel.nodes sel.first.node sel.last.node su =
          (sel.first.node, su) :: tail := by
      unfold collectedUnits
      by_cases hfl : sel.first.node = sel.last.node
      · exact ⟨[], by rw [if_pos hfl]⟩
      · exact ⟨collectFrom sel.nodes sel.last.node sel.first.node,
          by rw [if_neg hfl]⟩
    rw [htail] at hsel
    unfold pairsFor at hsel
    rw [List.filter_cons] at hsel
    rw [if_pos (by simpa using hne)] at hsel
    rw [List.map_cons] at hsel
    exact ⟨_, _, by
      rw [hsel]
      dsimp only
      rw [if_pos rfl]⟩

/-- Fixture unit rendered with interleaved citation and footnote markers,
from the repository's selection test: `[1]S<sup>2</sup>ome text.`. -/
def siUnit : LumiUnit :=
  ⟨"test-span-inline",
    [.citationElem "[1]", .charElem 'S', .footnoteElem "2"] ++
      "ome text.".toList.map RElem.charElem⟩

/-- Fixture single-unit selection of `text` (children 7 through 10). -/
def siSel : Sel := ⟨"text", true, [.lumi siUnit], ⟨0, 7⟩, ⟨0, 10⟩⟩

/-- Witness for C6 on the marker fixture: the offset law instances and the
reported start offset, matching the repository test's expected pair
`(startIndex 5, endIndex 9)`. -/
theorem offset_in_text_space_witness :
    getOffsetInLumiSpan siUnit.children 7 =
      (7 : Int) -
        (((siUnit.children.take 7).filter
            (fun e => e.isInlineMarker)).length : Int) ∧
    getOffsetInLumiSpan siUnit.children 7 =
      (((siUnit.children.take 7).filter (fun e => e.isCharElem)).length :
        Int) ∧
    (∃ eo rest,
      (SelectionInfo.mk "text" [⟨"test-span-inline", ⟨5, 9⟩⟩]
        ).highlightSelection =
        ⟨siUnit.uid,
          ⟨getOffsetInLumiSpan siUnit.children siSel.first.child, eo⟩⟩ ::
          rest) :=
  ⟨offset_in_text_space.1 siUnit.children 7,
    offset_in_text_space.2.1 siUnit.children 7 (by decide) (by decide),
    offset_in_text_space.2.2 siSel siUnit
      (SelectionInfo.mk "text" [⟨"test-span-inline", ⟨5, 9⟩⟩]) (by decide)
      (by decide)⟩

theorem collectFrom_stop (nodes : List SibNode) (e : Nat) :
    collectFrom nodes e e = [] := by
  rw [collectFrom.eq_def]
  simp

theorem collectFrom_step_lumi (nodes : List SibNode) (stopIdx cur : Nat)
    (u : LumiUnit) (h : ¬cur = stopIdx)
    (hn : nodes[cur + 1]? = some (SibNode.lumi u)) :
    collectFrom nodes stopIdx cur =
      (cur + 1, u) :: collectFrom nodes stopIdx (cur + 1) := by
  rw [collectFrom.eq_def]
  rw [if_neg h]
  split
  · rename_i heq
    rw [hn] at heq
    exact Option.noConfusion heq
  · rename_i u' heq
    rw [hn] at heq
    injection heq with heq
    injection heq with heq
    rw [heq]
  · rename_i heq
    rw [hn] at heq
    injection heq with heq
    exact SibNode.noConfusion heq

/-- Fixture unit whose children are one element per character. -/
def mkCharUnit (uid : String) (s : String) : LumiUnit :=
  ⟨uid, s.toList.map RElem.charElem⟩

/-- Fixture three-unit selection from the repository's multi-span test:
start at child 6 of the first unit, end at child 4 of the third. -/
def sel3 : Sel :=
  ⟨"part. Second part. Third", true,
    [.lumi (mkCharUnit "test-span-1" "First part. "),
     .lumi (mkCharUnit "test-span-2" "Second part. "),
     .lumi (mkCharUnit "test-span-3" "Third part.")],
    ⟨0, 6⟩, ⟨2, 4⟩⟩

theorem collectedUnits_sel3 :
    collectedUnits sel3.nodes 0 2 (mkCharUnit "test-span-1" "First part. ") =
      [(0, mkCharUnit "test-span-1" "First part. "),
       (1, mkCharUnit "test-span-2" "Second part. "),
       (2, mkCharUnit "test-span-3" "Third part.")] := by
  unfold collectedUnits
  rw [if_neg (by decide)]
  rw [collectFrom_step_lumi _ 2 0 (mkCharUnit "test-span-2" "Second part. ")
    (by decide) (by decide)]
  rw [collectFrom_step_lumi _ 2 1 (mkCharUnit "test-span-3" "Third part.")
    (by decide) (by decide)]
  rw [collectFrom_stop]

theorem getSelectionInfo_sel3 :
    getSelectionInfo sel3 =
      some
        ⟨"part. Second part. Third",
         [⟨"test-span-1", ⟨6, 13⟩⟩, ⟨"test-span-2", ⟨0, 14⟩⟩,
          ⟨"test-span-3", ⟨0, 5⟩⟩]⟩ := by
  have h1 : getSelectionInfo sel3 =
      some
        ⟨jsTrim sel3.text,
         pairsFor sel3 (mkCharUnit "test-span-1" "First part. ")
           (mkCharUnit "test-span-3" "Third part.")
           (collectedUnits sel3.nodes 0 2
             (mkCharUnit "test-span-1" "First part. "))⟩ := rfl
  rw [h1, collectedUnits_sel3]
  decide

/-- C2 counterexample: in the three-unit selection the strictly-middle unit
(13-character text `Second part. `) is reported with endIndex 14 — the text
length *plus one* — while the claim says the endIndex equals the unit's full
text length, 13; the repository's own test expects 14. -/
theorem middle_units_counterexample :
    getSelectionInfo sel3 =
      some
        ⟨"part. Second part. Third",
         [⟨"test-span-1", ⟨6, 13⟩⟩, ⟨"test-span-2", ⟨0, 14⟩⟩,
          ⟨"test-span-3", ⟨0, 5⟩⟩]⟩ ∧
    ((unitText (mkCharUnit "test-span-2" "Second part. ")).length : Int) =
      13 ∧
    (14 : Int) ≠ 13 :=
  ⟨getSelectionInfo_sel3, by decide, by decide⟩

/-- C2 (amended): for every selection whose boundaries anchor in different
span-rendering units, every collected unit strictly between the first and
the last (with a non-empty id) is reported with the full span selected,
startIndex 0 and endIndex equal to that unit's full text length PLUS ONE —
the resolver's inclusive-end increment is applied to every reported unit,
middle units included. -/
theorem middle_units_full_range :
    ∀ (sel : Sel) (su eu : LumiUnit) (info : SelectionInfo) (idx : Nat)
      (u : LumiUnit),
      getSelectionInfo sel = some info →
      sel.nodes[sel.first.node]? = some (SibNode.lumi su) →
      sel.nodes[sel.last.node]? = some (SibNode.lumi eu) →
      (idx, u) ∈ collectedUnits sel.nodes sel.first.node sel.last.node su →
      idx ≠ sel.first.node → idx ≠ sel.last.node → u.uid ≠ "" →
      (⟨u.uid, ⟨0, ((unitText u).length : Int) + 1⟩⟩ : HighlightSelection) ∈
        info.highlightSelection := by
  intro sel su eu info idx u h hsu heu hmem hne1 hne2 hneid
  obtain ⟨su', eu', hsu', heu', hns, hns2, hsel⟩ :=
    getSelectionInfo_some_inv sel info h
  rw [hsu] at hsu'
  injection hsu' with hsu'
  injection hsu' with hsu'
  subst hsu'
  rw [heu] at heu'
  injection heu' with heu'
  injection heu' with heu'
  subst heu'
  rw [hsel]
  unfold pairsFor
  refine List.mem_map.mpr ⟨(idx, u), List.mem_filter.mpr ⟨hmem, ?_⟩, ?_⟩
  · simpa using hneid
  · dsimp only
    rw [if_neg hne1, if_neg hne2]

/-- Witness for the amended C2 at the three-unit fixture: the middle unit is
reported as `(test-span-2, 0, its 13-character text length + 1)`. -/
theorem middle_units_full_range_witness :
    (⟨"test-span-2",
      ⟨0, ((unitText (mkCharUnit "test-span-2" "Second part. ")).length :
        Int) + 1⟩⟩ : HighlightSelection) ∈
      (SelectionInfo.mk "part. Second part. Third"
        [⟨"test-span-1", ⟨6, 13⟩⟩, ⟨"test-span-2", ⟨0, 14⟩⟩,
         ⟨"test-span-3", ⟨0, 5⟩⟩]).highlightSelection :=
  middle_units_full_range sel3 (mkCharUnit "test-span-1" "First part. ")
    (mkCharUnit "test-span-3" "Third part.")
    (SelectionInfo.mk "part. Second part. Third"
      [⟨"test-span-1", ⟨6, 13⟩⟩, ⟨"test-span-2", ⟨0, 14⟩⟩,
       ⟨"test-span-3", ⟨0, 5⟩⟩]) 1
    (mkCharUnit "test-span-2" "Second part. ") getSelectionInfo_sel3
    (by decide) (by decide)
    (by
      show (1, mkCharUnit "test-span-2" "Second part. ") ∈
        collectedUnits sel3.nodes 0 2 (mkCharUnit "test-span-1" "First part. ")
      rw [collectedUnits_sel3]
      decide)
    (by decide) (by decide) (by decide)
